import Mathlib

/-!
Verification of the logium-core analysis engine (crates/logium-core/src).

This file gives a shallow embedding, in Lean 4, of the pure computational core
of the engine:

* the data model of `model.rs` (`StateValue` with its cross-type equality and
  partial order, `TrackedValue`, extraction and pattern rules, events);
* the state manager of `engine.rs` (`apply_mutations`, `accumulate`,
  `get_state_by_name`, `snapshot`);
* the ordered-predicate pattern evaluator (`evaluate_patterns`,
  `evaluate_predicate`);
* the k-way min-heap merge (`MergedLogStream` / `ProcessedLineMerger`);
* the sequential Phase 2 of `analyze` and `analyze_streaming` (time-range
  filtering, JSON auto-extraction, rule application, pattern evaluation,
  event emission);
* the clustering accumulator of `cluster_logs`;
* the timestamp prefix-search of `parse_timestamp_prefix` and
  `estimate_timestamp_len`.

Modelling conventions:

* Naive datetimes are modelled as plain integers `Int`; only their
  linear order is ever used by the embedded code.
* Rust `i64` is modelled as `Int`.  `f64` values are carried as exact
  rationals `ℚ`, but every `f64` *operation* of the embedded code rounds
  its exact result to the nearest IEEE-754 binary64 value (ties to even,
  with the subnormal cutoff): `f64RoundPair` implements that rounding,
  `f64Add` is `f64` addition and `f64OfInt` the `i64 as f64` cast.
  Infinities and NaN are outside the embedding: the values the claims
  exercise stay in the finite double range, where rounding the exact sum
  is exactly IEEE addition.
* Rust `HashMap` is modelled as a key-sorted association list (`smInsert`
  keeps the list sorted by key, later inserts of the same key overwrite).
  Lookup and insert agree with `HashMap`; where the Rust code *iterates* a
  `HashMap` whose order is unspecified (the JSON auto-extraction field map in
  Phase 2), the iteration order is made an explicit `List` parameter.
* File I/O and the third-party `regex` engine (Phase 1 of the driver) are not
  re-implemented: the drivers are embedded from their Phase 2 loops onward,
  taking the per-source `ProcessedLine` sequences produced by Phase 1 as
  input.  Both `analyze` and `analyze_streaming` run the identical
  `process_source` in Phase 1, so they consume the same `ProcessedLine` data.
* The streaming sink is modelled as always accepting (`tx.send` never fails):
  the claims about `analyze_streaming` studied here presuppose an open sink.
-/

set_option autoImplicit false

namespace Logium

/-- StateValue variants, from `model.rs`.  `i64` is modelled as `Int`,
`f64` as `ℚ`. -/
inductive StateValue where
  | string (s : String)
  | integer (i : Int)
  | float (q : ℚ)
  | bool (b : Bool)
deriving DecidableEq

/-- The custom `PartialEq for StateValue` of `model.rs`: within-type equality,
Integer and Float cross-compare by promoting the integer. -/
def svEq : StateValue → StateValue → Bool
  | .string a, .string b => a = b
  | .integer a, .integer b => a = b
  | .float a, .float b => a = b
  | .bool a, .bool b => a = b
  | .integer a, .float b => (a : ℚ) = b
  | .float a, .integer b => a = (b : ℚ)
  | _, _ => false

/-- The custom `PartialOrd for StateValue` of `model.rs`. -/
def svPartialCmp : StateValue → StateValue → Option Ordering
  | .string a, .string b => some (compare a b)
  | .integer a, .integer b => some (compare a b)
  | .float a, .float b => some (compare a b)
  | .bool a, .bool b => some (compare a b)
  | .integer a, .float b => some (compare (a : ℚ) b)
  | .float a, .integer b => some (compare a (b : ℚ))
  | _, _ => none

/-- Equality of `Option<StateValue>` as Rust derives it from
`PartialEq for StateValue`. -/
def optSvEq : Option StateValue → Option StateValue → Bool
  | none, none => true
  | some a, some b => svEq a b
  | _, _ => false

/-- A state value paired with the timestamp of the line that last set it
(`model.rs`). -/
structure TrackedValue where
  value : StateValue
  set_at : Int
deriving DecidableEq

/-! ## Sorted association lists: the model of Rust `HashMap`

Keys carry a boolean strict total order and the list is kept sorted by key
with no duplicates, so that a map has one canonical representation: two
`HashMap`s with the same contents are modelled by the same list.  The order
is a custom one because the kernel must be able to evaluate it on string
keys (the library order on `String` is implemented with opaque iterator
primitives). -/

/-- A boolean strict total order on map keys. -/
class MapKey (K : Type) [DecidableEq K] where
  klt : K → K → Bool
  klt_irrefl : ∀ a, klt a a = false
  klt_trans : ∀ a b c, klt a b = true → klt b c = true → klt a c = true
  klt_total : ∀ a b, a ≠ b → klt a b = true ∨ klt b a = true

instance : MapKey Nat where
  klt a b := decide (a < b)
  klt_irrefl := by intro a; simp
  klt_trans := by intro a b c; simp only [decide_eq_true_eq]; omega
  klt_total := by intro a b h; simp only [decide_eq_true_eq]; omega

/-- Lexicographic order on character lists via code points (kernel
evaluable). -/
def charListLtB : List Char → List Char → Bool
  | [], [] => false
  | [], _ :: _ => true
  | _ :: _, [] => false
  | c :: cs, d :: ds =>
    if c.toNat < d.toNat then true
    else if d.toNat < c.toNat then false
    else charListLtB cs ds

/-- `String`s compare as their character lists; the three order laws are
proved inline so the instance is self-contained. -/
instance : MapKey String where
  klt a b := charListLtB a.data b.data
  klt_irrefl a := by
    have key : ∀ l, charListLtB l l = false := by
      intro l
      induction l with
      | nil => rfl
      | cons c cs ih => simp [charListLtB, ih]
    exact key a.data
  klt_trans a b c := by
    have key : ∀ a b c, charListLtB a b = true →
        charListLtB b c = true → charListLtB a c = true := by
      intro a
      induction a with
      | nil =>
        intro b c hab hbc
        cases b <;> cases c <;> simp_all [charListLtB]
      | cons x xs ih =>
        intro b c hab hbc
        cases b with
        | nil => simp [charListLtB] at hab
        | cons y ys =>
          cases c with
          | nil => simp [charListLtB] at hbc
          | cons z zs =>
            by_cases hxy : x.toNat < y.toNat
            · by_cases hyz : y.toNat < z.toNat
              · have hxz : x.toNat < z.toNat := lt_trans hxy hyz
                simp [charListLtB, hxz]
              · by_cases hzy : z.toNat < y.toNat
                · simp [charListLtB, hyz, hzy] at hbc
                · have hxz : x.toNat < z.toNat := by omega
                  simp [charListLtB, hxz]
            · by_cases hyx : y.toNat < x.toNat
              · simp [charListLtB, hxy, hyx] at hab
              · simp only [charListLtB, if_neg hxy, if_neg hyx] at hab
                by_cases hyz : y.toNat < z.toNat
                · have hxz : x.toNat < z.toNat := by omega
                  simp [charListLtB, hxz]
                · by_cases hzy : z.toNat < y.toNat
                  · simp [charListLtB, hyz, hzy] at hbc
                  · simp only [charListLtB, if_neg hyz, if_neg hzy] at hbc
                    have hxz : ¬ x.toNat < z.toNat := by omega
                    have hzx : ¬ z.toNat < x.toNat := by omega
                    simp only [charListLtB, if_neg hxz, if_neg hzx]
                    exact ih ys zs hab hbc
    exact key a.data b.data c.data
  klt_total a b hne := by
    have key : ∀ a b, a ≠ b →
        charListLtB a b = true ∨ charListLtB b a = true := by
      have hinj : Function.Injective Char.toNat :=
        StrictMono.injective fun a b h => h
      intro a
      induction a with
      | nil =>
        intro b hne
        cases b with
        | nil => exact absurd rfl hne
        | cons y ys => left; rfl
      | cons x xs ih =>
        intro b hne
        cases b with
        | nil => right; rfl
        | cons y ys =>
          by_cases hxy : x.toNat < y.toNat
          · left; simp [charListLtB, hxy]
          · by_cases hyx : y.toNat < x.toNat
            · right; simp [charListLtB, hyx]
            · have hx : x = y := hinj (by omega)
              subst hx
              have hys : xs ≠ ys := by
                intro hh; exact hne (by rw [hh])
              rcases ih ys hys with h | h
              · left; simp [charListLtB, h]
              · right; simp [charListLtB, h]
    exact key a.data b.data (fun h => hne (String.ext h))

/-- Map lookup (`HashMap::get`). -/
def smGet {K V : Type} [DecidableEq K] (m : List (K × V)) (k : K) :
    Option V :=
  match m with
  | [] => none
  | (k', v) :: t => if k = k' then some v else smGet t k

/-- Map insert (`HashMap::insert`): keeps the list sorted by key, overwrites
an existing binding. -/
def smInsert {K V : Type} [DecidableEq K] [MapKey K] (k : K) (v : V)
    (m : List (K × V)) : List (K × V) :=
  match m with
  | [] => [(k, v)]
  | (k', v') :: t =>
    if MapKey.klt k k' then (k, v) :: (k', v') :: t
    else if k = k' then (k, v) :: t
    else (k', v') :: smInsert k v t

/-- Map removal (`HashMap::remove`). -/
def smErase {K V : Type} [DecidableEq K] (k : K) (m : List (K × V)) :
    List (K × V) :=
  match m with
  | [] => []
  | (k', v') :: t => if k = k' then t else (k', v') :: smErase k t

/-! ## Data model (`model.rs`) -/

/-- A parsed log line.  The `cached_json` field of the source is omitted: it
is consumed (`take()`) by Phase 1 of the driver, so every `LogLine` reaching
Phase 2 carries `None` there. -/
structure LogLine where
  timestamp : Int
  source_id : Nat
  raw : String
  content : String
deriving DecidableEq

/-- A source: an actual log file.  `template_id` and `file_path` only matter
to the abstracted Phase 1. -/
structure Source where
  id : Nat
  name : String
  template_id : Nat
  file_path : String
deriving DecidableEq

inductive MatchMode where
  | any
  | all
deriving DecidableEq

structure MatchRule where
  id : Nat
  pattern : String
deriving DecidableEq

inductive ExtractionType where
  | parsed
  | static
  | clear
deriving DecidableEq

inductive ExtractionMode where
  | replace
  | accumulate
deriving DecidableEq

structure ExtractionRule where
  id : Nat
  extraction_type : ExtractionType
  state_key : String
  pattern : Option String
  static_value : Option String
  mode : ExtractionMode
deriving DecidableEq

structure LogRule where
  id : Nat
  name : String
  match_mode : MatchMode
  match_rules : List MatchRule
  extraction_rules : List ExtractionRule
deriving DecidableEq

/-- Predicate operators.  The Rust variant `Exists` is spelled `exist` here
(`exists` is a Lean keyword). -/
inductive Operator where
  | eq
  | neq
  | gt
  | lt
  | gte
  | lte
  | contains
  | exist
deriving DecidableEq

inductive Operand where
  | literal (v : StateValue)
  | stateRef (source_name : String) (state_key : String)
deriving DecidableEq

structure PatternPredicate where
  source_name : String
  state_key : String
  operator : Operator
  operand : Operand
deriving DecidableEq

structure Pattern where
  id : Nat
  name : String
  predicates : List PatternPredicate
deriving DecidableEq

/-- Per-source state: `HashMap<String, TrackedValue>`. -/
abbrev StateMap := List (String × TrackedValue)

/-- A state snapshot: source name to per-source state. -/
abbrev Snapshot := List (String × StateMap)

structure RuleMatch where
  rule_id : Nat
  source_id : Nat
  log_line : LogLine
  extracted_state : List (String × StateValue)
deriving DecidableEq

structure PatternMatch where
  pattern_id : Nat
  timestamp : Int
  state_snapshot : Snapshot
deriving DecidableEq

structure StateChange where
  timestamp : Int
  source_id : Nat
  source_name : String
  state_key : String
  old_value : Option StateValue
  new_value : Option StateValue
  rule_id : Nat
deriving DecidableEq

structure AnalysisResult where
  rule_matches : List RuleMatch
  pattern_matches : List PatternMatch
  state_changes : List StateChange
deriving DecidableEq

/-- Optional start/end bounds (`TimeRange` in `engine.rs`).  The Rust field
`end` is spelled `stop` (`end` is a Lean keyword). -/
structure TimeRange where
  start : Option Int
  stop : Option Int
deriving DecidableEq

/-- A log line with pre-computed rule evaluation results from Phase 1
(`ProcessedLine` in `engine.rs`).  `json_fields` is `Some` exactly for
JSON-mode sources; its list order models the iteration order of the Rust
`HashMap<String, StateValue>`, which is unspecified. -/
structure ProcessedLine where
  line : LogLine
  rule_matches : List (Nat × List (String × StateValue))
  json_fields : Option (List (String × StateValue))
deriving DecidableEq

/-- Events emitted during streaming analysis (`AnalysisEvent`). -/
inductive AnalysisEvent where
  | ruleMatch (rm : RuleMatch)
  | patternMatch (pm : PatternMatch)
  | stateChange (sc : StateChange)
  | progress (lines_processed : Nat)
  | complete (total_lines total_rule_matches total_pattern_matches
      total_state_changes : Nat)
  | error (message : String)
deriving DecidableEq

/-! ## K-way merge (`MergedLogStream`, `ProcessedLineMerger`)

Rust keeps a `BinaryHeap` of `(entry, source_idx)` whose reversed `Ord`
compares `(timestamp, source_idx)`, so `pop` yields the item whose
`(timestamp, source_idx)` is least in lexicographic order; `next()` pops the
minimum, refills from the popped item's source, and returns the popped entry.
The heap is modelled as a list of `(entry, source index)` pairs and `pop` as
selection of the lexicographic minimum; source indices in the heap are
distinct (one pending entry per source), so the minimum is unique and the
model is deterministic exactly like the heap. -/

/-- Strict lexicographic comparison on `(timestamp, source index)`: the order
used (reversed) by `impl Ord for HeapItem` and `impl Ord for
ProcessedHeapItem`. -/
def lexLtB {α : Type} (ts : α → Int) (x y : α × Nat) : Bool :=
  ts x.1 < ts y.1 || (ts x.1 = ts y.1 && x.2 < y.2)

/-- Remove the lexicographically least `(timestamp, source index)` item:
`BinaryHeap::pop` under the reversed `Ord`. -/
def popMin {α : Type} (ts : α → Int) :
    List (α × Nat) → Option ((α × Nat) × List (α × Nat))
  | [] => none
  | x :: xs =>
    match popMin ts xs with
    | none => some (x, [])
    | some (m, rest) =>
      if lexLtB ts m x then some (m, x :: rest) else some (x, xs)

/-- One `next()` step iterated under fuel: pop the minimum, refill from the
same source, emit the popped entry (with its source index). -/
def mergeRun {α : Type} (ts : α → Int) :
    Nat → List (α × Nat) → List (List α) → List (α × Nat)
  | 0, _, _ => []
  | fuel + 1, heap, iters =>
    match popMin ts heap with
    | none => []
    | some ((e, i), rest) =>
      match iters.getD i [] with
      | [] => (e, i) :: mergeRun ts fuel rest iters
      | f :: fs =>
        (e, i) :: mergeRun ts fuel ((f, i) :: rest) (iters.set i fs)

/-- Initial heap fill: one head entry per non-empty source, tagged with the
source registration index. -/
def initHeap {α : Type} (srcs : List (List α)) : List (α × Nat) :=
  srcs.enum.filterMap fun p => p.2.head?.map fun e => (e, p.1)

/-- The iterators after the initial fill: each source minus its head. -/
def initIters {α : Type} (srcs : List (List α)) : List (List α) :=
  srcs.map List.tail

/-- Enough fuel to drain everything. -/
def mergeFuel {α : Type} (heap : List (α × Nat)) (iters : List (List α)) :
    Nat :=
  heap.length + (iters.map List.length).sum

/-- The full merged sequence, each entry tagged with its source registration
index. -/
def mergedPairs {α : Type} (ts : α → Int) (srcs : List (List α)) :
    List (α × Nat) :=
  mergeRun ts (mergeFuel (initHeap srcs) (initIters srcs)) (initHeap srcs)
    (initIters srcs)

/-- The merged entry sequence as yielded to the caller. -/
def mergedList {α : Type} (ts : α → Int) (srcs : List (List α)) :
    List α :=
  (mergedPairs ts srcs).map Prod.fst

/-- The sequence of `LogLine`s yielded by `MergedLogStream` (error-free
runs). -/
def MergedLogStream.run (srcs : List (List LogLine)) : List LogLine :=
  mergedList LogLine.timestamp srcs

/-- The sequence of `ProcessedLine`s yielded by `ProcessedLineMerger`. -/
def ProcessedLineMerger.run (srcs : List (List ProcessedLine)) :
    List ProcessedLine :=
  mergedList (fun p => p.line.timestamp) srcs

/-! ## Ordering of the merged stream -/

/-- Non-strict lexicographic order on `(timestamp, source index)`. -/
def lexLe {α : Type} (ts : α → Int) (x y : α × Nat) : Prop :=
  ts x.1 < ts y.1 ∨ (ts x.1 = ts y.1 ∧ x.2 ≤ y.2)

/-- Invariant of a running merge: every pending heap item is no later than
anything remaining in its own source, and every source remainder is
internally sorted by timestamp. -/
def MergeInv {α : Type} (ts : α → Int) (heap : List (α × Nat))
    (iters : List (List α)) : Prop :=
  (∀ x ∈ heap, ∀ f ∈ iters.getD x.2 [], ts x.1 ≤ ts f) ∧
  (∀ l ∈ iters, l.Pairwise (fun a b => ts a ≤ ts b))

/-- Helper for concrete test lines. -/
def wLine (t : Int) (s : Nat) : LogLine :=
  { timestamp := t, source_id := s, raw := "", content := "" }

/-! ## State manager (`StateManager` in `engine.rs`) -/

structure StateManager where
  per_source_state : List (Nat × StateMap)
  source_names : List (Nat × String)
  name_to_id : List (String × Nat)
deriving DecidableEq

/-- `StateManager::new`: index the sources by id and by name (later
duplicates overwrite, as `HashMap::insert` does). -/
def StateManager.new (sources : List Source) : StateManager :=
  { per_source_state := []
    source_names := sources.foldl (fun m s => smInsert s.id s.name m) []
    name_to_id := sources.foldl (fun m s => smInsert s.name s.id m) [] }

/-- `StateManager::get_state_by_name`. -/
def StateManager.get_state_by_name (sm : StateManager)
    (source_name key : String) : Option StateValue :=
  match smGet sm.name_to_id source_name with
  | none => none
  | some id =>
    match smGet sm.per_source_state id with
    | none => none
    | some st =>
      match smGet st key with
      | none => none
      | some t => some t.value

/-- `StateManager::snapshot`: all per-source state keyed by source name. -/
def StateManager.snapshot (sm : StateManager) : Snapshot :=
  sm.per_source_state.foldl
    (fun snap p =>
      match smGet sm.source_names p.1 with
      | some name => smInsert name p.2 snap
      | none => snap) []

/-- Scale a positive fraction `n / d` into `[1, 2)` by fuelled
halving/doubling, returning the scaled pair and the binary exponent
(structural recursion, so the kernel can evaluate it; the fuel covers the
whole double exponent range). -/
def scaleLoop : Nat → Nat → Nat → Int → Nat × Nat × Int
  | 0, n, d, e => (n, d, e)
  | f + 1, n, d, e =>
    if n < d then scaleLoop f (2 * n) d (e - 1)
    else if 2 * d ≤ n then scaleLoop f n (2 * d) (e + 1)
    else (n, d, e)

/-- Round the fraction `n / d` to an integer, ties to even (the IEEE-754
default rounding of a value halfway between two representables). -/
def roundPairHalfEven (n d : Nat) : Nat :=
  let q := n / d
  let r := n % d
  if 2 * r < d then q
  else if d < 2 * r then q + 1
  else if q % 2 = 0 then q else q + 1

/-- Divide out up to `k` factors of two (fuelled), returning the reduced
numerator and the remaining exponent. -/
def stripTwos : Nat → Nat → Nat → Nat × Nat
  | 0, n, k => (n, k)
  | f + 1, n, k =>
    if n % 2 = 0 ∧ 0 < k then stripTwos f (n / 2) (k - 1) else (n, k)

/-- Round the exact rational `n / d` to the nearest IEEE-754 binary64
value, ties to even: scale the magnitude into a 53-bit significand at its
binade — clamped at the subnormal cutoff `2 ^ (-1022)` — round that to an
integer, and rebuild the value.  All arithmetic is on `Int`/`Nat` so the
kernel can evaluate it.  Finite range only: overflow to infinity and NaN
never arise in the values the development evaluates. -/
def f64RoundPair (n : Int) (d : Nat) : ℚ :=
  if n = 0 ∨ d = 0 then 0
  else
    let s : Int := if n < 0 then -1 else 1
    let p := scaleLoop 2200 n.natAbs d 0
    let e : Int := max p.2.2 (-1022)
    let t : Int := 52 - e + p.2.2
    let nd : Nat × Nat :=
      if 0 ≤ t then (p.1 * 2 ^ t.toNat, p.2.1)
      else (p.1, p.2.1 * 2 ^ (-t).toNat)
    let sig := roundPairHalfEven nd.1 nd.2
    let k : Int := e - 52
    if 0 ≤ k then ((s * (sig : Int) * 2 ^ k.toNat : Int) : ℚ)
    else
      let nk := stripTwos 1200 sig (-k).toNat
      if nk.2 = 0 then ((s * (nk.1 : Int) : Int) : ℚ)
      else (s * (nk.1 : Int) : ℚ) / ((2 ^ nk.2 : Nat) : ℚ)

/-- IEEE-754 binary64 addition of two doubles: round the exact sum (its
numerator and denominator are formed exactly, then rounded once). -/
def f64Add (a b : ℚ) : ℚ :=
  f64RoundPair (a.num * (b.den : Int) + b.num * (a.den : Int))
    (a.den * b.den)

/-- The Rust `i64 as f64` cast: round to the nearest double, ties to
even. -/
def f64OfInt (i : Int) : ℚ := f64RoundPair i 1

/-- `accumulate` in `engine.rs`: merge a new value into existing state by
type pair; on any pairing outside the table, or on an absent key, store the
new value.  The three `Float`-producing arms are `f64` arithmetic in the
source (`a + b`, `*a as f64 + b`, `a + *b as f64`), so they round. -/
def accumulate (state : StateMap) (key : String) (new_val : StateValue)
    (timestamp : Int) : StateMap :=
  match smGet state key with
  | some existing =>
    let merged : StateValue :=
      match existing.value, new_val with
      | .string a, .string b => .string (a ++ "," ++ b)
      | .integer a, .integer b => .integer (a + b)
      | .float a, .float b => .float (f64Add a b)
      | .integer a, .float b => .float (f64Add (f64OfInt a) b)
      | .float a, .integer b => .float (f64Add a (f64OfInt b))
      | _, _ => new_val
    smInsert key { value := merged, set_at := timestamp } state
  | none => smInsert key { value := new_val, set_at := timestamp } state

/-- The body of the `for rule in rules` loop of
`StateManager::apply_mutations`: the state map after one `ExtractionRule`,
with the diff records it appends. -/
def applyOneRule (extractions : List (String × StateValue)) (timestamp : Int)
    (state : StateMap) (rule : ExtractionRule) :
    StateMap × List (String × Option StateValue × Option StateValue) :=
  match rule.extraction_type with
  | .clear =>
    match smGet state rule.state_key with
    | some t =>
      (smErase rule.state_key state, [(rule.state_key, some t.value, none)])
    | none => (smErase rule.state_key state, [])
  | .static =>
    match rule.static_value with
    | none => (state, [])
    | some val =>
      let new_val := StateValue.string val
      let old := (smGet state rule.state_key).map (fun t => t.value)
      let state2 :=
        match rule.mode with
        | .replace =>
          smInsert rule.state_key { value := new_val, set_at := timestamp }
            state
        | .accumulate => accumulate state rule.state_key new_val timestamp
      let new := (smGet state2 rule.state_key).map (fun t => t.value)
      if optSvEq old new then (state2, [])
      else (state2, [(rule.state_key, old, new)])
  | .parsed =>
    match smGet extractions rule.state_key with
    | none => (state, [])
    | some val =>
      let old := (smGet state rule.state_key).map (fun t => t.value)
      let state2 :=
        match rule.mode with
        | .replace =>
          smInsert rule.state_key { value := val, set_at := timestamp } state
        | .accumulate => accumulate state rule.state_key val timestamp
      let new := (smGet state2 rule.state_key).map (fun t => t.value)
      if optSvEq old new then (state2, [])
      else (state2, [(rule.state_key, old, new)])

/-- The `for rule in rules` loop of `apply_mutations`, threading the state
and concatenating the appended diffs. -/
def applyRulesLoop (extractions : List (String × StateValue))
    (timestamp : Int) (state : StateMap) :
    List ExtractionRule →
    StateMap × List (String × Option StateValue × Option StateValue)
  | [] => (state, [])
  | r :: rs =>
    let sr := applyOneRule extractions timestamp state r
    let srs := applyRulesLoop extractions timestamp sr.1 rs
    (srs.1, sr.2 ++ srs.2)

/-- `StateManager::apply_mutations`: fetch (or create) the source's state
map, walk the rules, store the map back.  Returns the diff records. -/
def StateManager.apply_mutations (sm : StateManager) (source_id : Nat)
    (extractions : List (String × StateValue))
    (rules : List ExtractionRule) (timestamp : Int) :
    StateManager × List (String × Option StateValue × Option StateValue) :=
  let state := (smGet sm.per_source_state source_id).getD []
  let res := applyRulesLoop extractions timestamp state rules
  ({ sm with per_source_state := smInsert source_id res.1 sm.per_source_state },
    res.2)

/-! ## Pattern evaluator (`PatternEvaluator` in `engine.rs`) -/

/-- `evaluate_predicate` in `engine.rs`. -/
def evaluate_predicate (pred : PatternPredicate) (state : StateManager) :
    Bool :=
  let current_val := state.get_state_by_name pred.source_name pred.state_key
  let operand_val : Option StateValue :=
    match pred.operand with
    | .literal v => some v
    | .stateRef source_name state_key =>
      state.get_state_by_name source_name state_key
  match pred.operator with
  | .exist => current_val.isSome
  | .eq =>
    match current_val, operand_val with
    | some a, some b => svEq a b
    | _, _ => false
  | .neq =>
    match current_val, operand_val with
    | some a, some b => !svEq a b
    | _, _ => false
  | .gt =>
    match current_val, operand_val with
    | some a, some b => svPartialCmp a b == some Ordering.gt
    | _, _ => false
  | .lt =>
    match current_val, operand_val with
    | some a, some b => svPartialCmp a b == some Ordering.lt
    | _, _ => false
  | .gte =>
    match current_val, operand_val with
    | some a, some b =>
      match svPartialCmp a b with
      | some Ordering.gt => true
      | some Ordering.eq => true
      | _ => false
    | _, _ => false
  | .lte =>
    match current_val, operand_val with
    | some a, some b =>
      match svPartialCmp a b with
      | some Ordering.lt => true
      | some Ordering.eq => true
      | _ => false
    | _, _ => false
  | .contains =>
    match current_val, operand_val with
    | some (.string a), some (.string b) => decide (List.IsInfix b.data a.data)
    | _, _ => false

/-- The per-pattern body of `PatternEvaluator::evaluate_patterns`: given one
pattern and its current progress, the new progress and the emitted match
(pattern id and snapshot), if any.  The Rust code stores a wall-clock
placeholder timestamp in the emitted `PatternMatch`; both drivers overwrite
it with the merged line's timestamp, so the match is modelled without it. -/
def evalOnePattern (pattern : Pattern) (progress : Nat)
    (state : StateManager) : Nat × Option (Nat × Snapshot) :=
  if pattern.predicates.isEmpty then (progress, none)
  else
    match pattern.predicates.get? progress with
    | none => (progress, none)
    | some current_pred =>
      if evaluate_predicate current_pred state then
        if (List.range progress).all
            (fun prev_idx =>
              match pattern.predicates.get? prev_idx with
              | some p => evaluate_predicate p state
              | none => true) then
          if progress + 1 = pattern.predicates.length then
            (0, some (pattern.id, state.snapshot))
          else (progress + 1, none)
        else (0, none)
      else (progress, none)

/-- `PatternEvaluator::evaluate_patterns`: the loop body is independent per
pattern (the state is only read), so the call maps `evalOnePattern` over the
patterns zipped with their progress entries; matches are pushed in pattern
order. -/
def evaluate_patterns (patterns : List Pattern) (progress : List Nat)
    (state : StateManager) : List Nat × List (Nat × Snapshot) :=
  let results :=
    (patterns.zip progress).map (fun pr => evalOnePattern pr.1 pr.2 state)
  (results.map Prod.fst, results.filterMap Prod.snd)

/-- Concrete pattern for the C2 witness: two `Exists` predicates on source
`s`, keys `a` and `b`. -/
def c2Pat : Pattern :=
  { id := 7, name := "w",
    predicates :=
      [{ source_name := "s", state_key := "a", operator := .exist,
         operand := .literal (.integer 0) },
       { source_name := "s", state_key := "b", operator := .exist,
         operand := .literal (.integer 0) }] }

/-- Concrete state for the C2 witness: source 1 named `s` with keys `a`,
`b` set. -/
def c2St : StateManager :=
  { per_source_state :=
      [(1, [("a", { value := StateValue.integer 5, set_at := 0 }),
            ("b", { value := StateValue.integer 6, set_at := 0 })])]
    source_names := [(1, "s")]
    name_to_id := [("s", 1)] }

/-- The merge table of `accumulate`, used to state C3's per-type-pair
behavior compactly: which pairings the code combines rather than
replaces. -/
def accumCombines : StateValue → StateValue → Bool
  | .string _, .string _ => true
  | .integer _, .integer _ => true
  | .float _, .float _ => true
  | .integer _, .float _ => true
  | .float _, .integer _ => true
  | _, _ => false

/-- Concrete map for the C3 witness. -/
def c3Map : StateMap := [("x", { value := StateValue.integer 3, set_at := 0 })]

/-- Concrete map for the C3 float counterexample and witness: key `x`
holds the double `2 ^ 53`, whose unit in the last place is 2. -/
def c3FMap : StateMap :=
  [("x", { value := StateValue.float 9007199254740992, set_at := 0 })]

/-! ## Driver Phase 2 (`analyze`, `analyze_streaming` in `engine.rs`)

Phase 1 (file reading, regex evaluation, JSON field conversion) is shared
verbatim by both drivers through `process_source`; it is abstracted here as
the per-source `List ProcessedLine` inputs.  Phase 2 is embedded in full:
time-range filtering over the `ProcessedLineMerger` stream, JSON
auto-extraction with rule id 0, `apply_mutations` per pre-computed rule
match, pattern evaluation after each line, and in the streaming driver the
event sequence with `Progress` every 500 lines and a final `Complete`.  The
loop bodies of `analyze` and `analyze_streaming` are identical in the
source; `lineStep` embeds that shared body once and each driver assembles
its own output from it. -/

/-- Lookup in the `rule_id → &LogRule` map the drivers build by collecting
`(r.id, r)` pairs into a `HashMap` (on duplicate ids the later rule
wins). -/
def lookupRule (rules : List LogRule) (rid : Nat) : Option LogRule :=
  rules.foldl (fun acc r => if r.id = rid then some r else acc) none

/-- The `start` check of the Phase 2 loop (`skip if before start`). -/
def beforeStart (tr : TimeRange) (t : Int) : Bool :=
  match tr.start with
  | some s => decide (t < s)
  | none => false

/-- The `end` check of the Phase 2 loop (`break if after end`). -/
def afterEnd (tr : TimeRange) (t : Int) : Bool :=
  match tr.stop with
  | some e => decide (e < t)
  | none => false

/-- The time-range filtering of the Phase 2 loop: per line, first the
`start` check (`continue`), then the `end` check (`break`).  The checks
precede every other effect of the loop body, so the loop is the fold of the
body over `timeFilter` of the merged stream. -/
def timeFilter {α : Type} (ts : α → Int) (tr : TimeRange) :
    List α → List α
  | [] => []
  | p :: rest =>
    if beforeStart tr (ts p) then timeFilter ts tr rest
    else if afterEnd tr (ts p) then []
    else p :: timeFilter ts tr rest

/-- JSON auto-extraction for one line (step 2 of the Phase 2 loop): write
each field into the source's state as Replace with the line's timestamp;
record `(key, old, new)` when the value differs.  `fields` is the iteration
order of the Rust field `HashMap`, which is unspecified. -/
def applyJsonFields (state : StateMap) (t : Int) :
    List (String × StateValue) →
    StateMap × List (String × Option StateValue × Option StateValue)
  | [] => (state, [])
  | (key, sv) :: rest =>
    let old := (smGet state key).map (fun tv => tv.value)
    let state2 := smInsert key { value := sv, set_at := t } state
    let res := applyJsonFields state2 t rest
    if optSvEq old (some sv) then res
    else (res.1, (key, old, some sv) :: res.2)

/-- The `for (rule_id, extracted) in &processed.rule_matches` loop of the
Phase 2 body: apply mutations, convert the diffs to `StateChange`s with the
rule's id, record the `RuleMatch`. -/
def ruleLoop (rules : List LogRule) (source_name : String) (line : LogLine)
    (sm : StateManager) :
    List (Nat × List (String × StateValue)) →
    StateManager × List (List StateChange × RuleMatch)
  | [] => (sm, [])
  | (rid, extracted) :: rest =>
    match lookupRule rules rid with
    | none => ruleLoop rules source_name line sm rest
    | some rule =>
      let res := sm.apply_mutations line.source_id extracted
        rule.extraction_rules line.timestamp
      let changes := res.2.map (fun c =>
        { timestamp := line.timestamp, source_id := line.source_id,
          source_name := source_name, state_key := c.1, old_value := c.2.1,
          new_value := c.2.2, rule_id := rid : StateChange })
      let rm : RuleMatch :=
        { rule_id := rid, source_id := line.source_id, log_line := line,
          extracted_state := extracted }
      let rest_res := ruleLoop rules source_name line res.1 rest
      (rest_res.1, (changes, rm) :: rest_res.2)

/-- The effects of the shared Phase 2 loop body on one merged line. -/
structure LineEffects where
  sm : StateManager
  progress : List Nat
  json_changes : List StateChange
  rule_results : List (List StateChange × RuleMatch)
  pattern_matches : List PatternMatch

/-- The shared Phase 2 loop body (identical in `analyze` and
`analyze_streaming`): JSON auto-extraction, rule application, pattern
evaluation, with every emitted timestamp stamped to the line's. -/
def lineStep (rules : List LogRule) (patterns : List Pattern)
    (sm : StateManager) (progress : List Nat) (p : ProcessedLine) :
    LineEffects :=
  let line := p.line
  let jres : StateManager × List StateChange :=
    match p.json_fields with
    | none => (sm, [])
    | some fields =>
      let source_name := (smGet sm.source_names line.source_id).getD ""
      let st0 := (smGet sm.per_source_state line.source_id).getD []
      let res := applyJsonFields st0 line.timestamp fields
      ({ sm with per_source_state :=
          smInsert line.source_id res.1 sm.per_source_state },
       res.2.map (fun c =>
         { timestamp := line.timestamp, source_id := line.source_id,
           source_name := source_name, state_key := c.1,
           old_value := c.2.1, new_value := c.2.2, rule_id := 0 }))
  let sm1 := jres.1
  let source_name := (smGet sm1.source_names line.source_id).getD ""
  let rres := ruleLoop rules source_name line sm1 p.rule_matches
  let pres := evaluate_patterns patterns progress rres.1
  { sm := rres.1
    progress := pres.1
    json_changes := jres.2
    rule_results := rres.2
    pattern_matches := pres.2.map (fun m =>
      { pattern_id := m.1, timestamp := line.timestamp,
        state_snapshot := m.2 }) }

/-- Accumulator of the sync driver's Phase 2 loop. -/
structure Phase2Acc where
  sm : StateManager
  progress : List Nat
  rule_matches : List RuleMatch
  pattern_matches : List PatternMatch
  state_changes : List StateChange

/-- One iteration of the sync Phase 2 loop (`analyze`). -/
def processLine (rules : List LogRule) (patterns : List Pattern)
    (acc : Phase2Acc) (p : ProcessedLine) : Phase2Acc :=
  let r := lineStep rules patterns acc.sm acc.progress p
  { sm := r.sm
    progress := r.progress
    rule_matches := acc.rule_matches ++ r.rule_results.map Prod.snd
    pattern_matches := acc.pattern_matches ++ r.pattern_matches
    state_changes := acc.state_changes ++ r.json_changes ++
      (r.rule_results.map Prod.fst).flatten }

/-- Phase 2 of `analyze` over the Phase 1 output: merge, filter by time
range, fold the loop body, collect the result vectors. -/
def analyze (rules : List LogRule) (patterns : List Pattern)
    (sources : List Source) (tr : TimeRange)
    (processed : List (List ProcessedLine)) : AnalysisResult :=
  let merged := ProcessedLineMerger.run processed
  let filtered := timeFilter (fun p => p.line.timestamp) tr merged
  let init : Phase2Acc :=
    { sm := StateManager.new sources
      progress := List.replicate patterns.length 0
      rule_matches := [], pattern_matches := [], state_changes := [] }
  let final := filtered.foldl (processLine rules patterns) init
  { rule_matches := final.rule_matches
    pattern_matches := final.pattern_matches
    state_changes := final.state_changes }

/-- Accumulator of the streaming driver's Phase 2 loop. -/
structure StreamAcc where
  sm : StateManager
  progress : List Nat
  lines_processed : Nat
  total_rule_matches : Nat
  total_pattern_matches : Nat
  total_state_changes : Nat
  events : List AnalysisEvent

/-- One iteration of the streaming Phase 2 loop (`analyze_streaming`) with
an open sink: per rule the `StateChange`s precede the `RuleMatch`; a
`Progress` event fires every 500 processed (in-range) lines. -/
def processLineStreaming (rules : List LogRule) (patterns : List Pattern)
    (acc : StreamAcc) (p : ProcessedLine) : StreamAcc :=
  let r := lineStep rules patterns acc.sm acc.progress p
  let n := acc.lines_processed + 1
  let evs :=
    r.json_changes.map AnalysisEvent.stateChange ++
    (r.rule_results.map (fun cr =>
      cr.1.map AnalysisEvent.stateChange ++
        [AnalysisEvent.ruleMatch cr.2])).flatten ++
    r.pattern_matches.map AnalysisEvent.patternMatch ++
    (if n % 500 = 0 then [AnalysisEvent.progress n] else [])
  { sm := r.sm
    progress := r.progress
    lines_processed := n
    total_rule_matches := acc.total_rule_matches + r.rule_results.length
    total_pattern_matches :=
      acc.total_pattern_matches + r.pattern_matches.length
    total_state_changes := acc.total_state_changes + r.json_changes.length +
      (r.rule_results.map (fun cr => cr.1.length)).sum
    events := acc.events ++ evs }

/-- Phase 2 of `analyze_streaming` over the Phase 1 output, with an
always-open sink: the sequence of events sent, ending with `Complete`. -/
def analyze_streaming (rules : List LogRule) (patterns : List Pattern)
    (sources : List Source) (tr : TimeRange)
    (processed : List (List ProcessedLine)) : List AnalysisEvent :=
  let merged := ProcessedLineMerger.run processed
  let filtered := timeFilter (fun p => p.line.timestamp) tr merged
  let init : StreamAcc :=
    { sm := StateManager.new sources
      progress := List.replicate patterns.length 0
      lines_processed := 0, total_rule_matches := 0
      total_pattern_matches := 0, total_state_changes := 0, events := [] }
  let final := filtered.foldl (processLineStreaming rules patterns) init
  final.events ++
    [AnalysisEvent.complete final.lines_processed final.total_rule_matches
      final.total_pattern_matches final.total_state_changes]

/-- Extract the `RuleMatch` payload of an event. -/
def evRuleMatch : AnalysisEvent → Option RuleMatch
  | .ruleMatch rm => some rm
  | _ => none

/-- Extract the `StateChange` payload of an event. -/
def evStateChange : AnalysisEvent → Option StateChange
  | .stateChange sc => some sc
  | _ => none

/-- Extract the `PatternMatch` payload of an event. -/
def evPatternMatch : AnalysisEvent → Option PatternMatch
  | .patternMatch pm => some pm
  | _ => none

/-! ## Clustering (`cluster_logs` in `engine.rs`)

`tokenize` masks variable tokens with third-party regexes; it enters the
embedding as the signature function `tok` applied to each line's content.
The accumulator, singleton filter, descending sort and `total_lines`
counting are embedded in full. -/

structure LogCluster where
  template : String
  count : Nat
  source_ids : List Nat
  sample_lines : List String
deriving DecidableEq

structure ClusterResult where
  clusters : List LogCluster
  total_lines : Nat
deriving DecidableEq

/-- `HashSet<u64>` as a canonical sorted list: insertion keeps order and
drops duplicates. -/
def natSetInsert (x : Nat) : List Nat → List Nat
  | [] => [x]
  | y :: t =>
    if x < y then x :: y :: t
    else if x = y then y :: t
    else y :: natSetInsert x t

/-- Per-signature accumulation step: count, source-id set, up to 3 sample
raw lines. -/
def bumpEntry (e : LogCluster) (l : LogLine) : LogCluster :=
  { template := e.template
    count := e.count + 1
    source_ids := natSetInsert l.source_id e.source_ids
    sample_lines :=
      if e.sample_lines.length < 3 then e.sample_lines ++ [l.raw]
      else e.sample_lines }

/-- `clusters.entry(signature).or_insert(default)` followed by the
accumulation: association list keyed by signature. -/
def addLine : List (String × LogCluster) → String → LogLine →
    List (String × LogCluster)
  | [], sig, l =>
    [(sig, { template := sig, count := 1, source_ids := [l.source_id],
             sample_lines := [l.raw] })]
  | (s, e) :: rest, sig, l =>
    if s = sig then (s, bumpEntry e l) :: rest
    else (s, e) :: addLine rest sig l

/-- The per-signature accumulation over the in-range lines. -/
def clusterEntries (tok : String → String) (lines : List LogLine) :
    List (String × LogCluster) :=
  lines.foldl (fun m l => addLine m (tok l.content) l) []

/-- `cluster_logs`: merge the sources, apply the time-range filter,
accumulate per signature, discard singletons, sort by descending count;
`total_lines` counts every in-range line before the filter. -/
def cluster_logs (tok : String → String) (tr : TimeRange)
    (srcs : List (List LogLine)) : ClusterResult :=
  let merged := MergedLogStream.run srcs
  let inRange := timeFilter LogLine.timestamp tr merged
  let entries := clusterEntries tok inRange
  let kept := entries.filter (fun pe => decide (1 < pe.2.count))
  { clusters :=
      (kept.map Prod.snd).mergeSort (fun a b => decide (b.count ≤ a.count))
    total_lines := inRange.length }

/-- Concrete rule set for the C4 witness: one rule extracting `x`. -/
def c4Rules : List LogRule :=
  [{ id := 1, name := "r", match_mode := .any, match_rules := []
     extraction_rules :=
       [{ id := 10, extraction_type := .parsed, state_key := "x",
          pattern := some "p", static_value := none, mode := .replace }] }]

/-- Concrete Phase 1 output for the C4 witness: one line matching rule 1
with extraction `x := 5`. -/
def c4Processed : List (List ProcessedLine) :=
  [[{ line := wLine 1 0, rule_matches := [(1, [("x", .integer 5)])],
      json_fields := none }]]

/-- Concrete sources for the C4 witness. -/
def c4Sources : List Source :=
  [{ id := 0, name := "s", template_id := 0, file_path := "f" }]

/-- The StateChange the concrete C4 run emits. -/
def c4Sc : StateChange :=
  { timestamp := 1, source_id := 0, source_name := "s", state_key := "x",
    old_value := none, new_value := some (.integer 5), rule_id := 1 }

/-- Standing invariant of the cluster accumulator: counts are at least 1
and at most 3 samples are kept. -/
def EntryInv (pe : String × LogCluster) : Prop :=
  1 ≤ pe.2.count ∧ pe.2.sample_lines.length ≤ 3

/-- Concrete input for the C9 witness: contents `a`, `a`, `b` — one kept
cluster of count 2 and one discarded singleton. -/
def c9Srcs : List (List LogLine) :=
  [[{ timestamp := 1, source_id := 0, raw := "a", content := "a" },
    { timestamp := 2, source_id := 0, raw := "a", content := "a" },
    { timestamp := 3, source_id := 0, raw := "b", content := "b" }]]

/-- Concrete state for the C10 witness: source 1 holds `x = Integer 3`. -/
def c10Sm : StateManager :=
  { per_source_state :=
      [(1, [("x", { value := StateValue.integer 3, set_at := 0 })])]
    source_names := [(1, "s")]
    name_to_id := [("s", 1)] }

/-! ## Timestamp prefix search (`parse_timestamp_prefix`,
`estimate_timestamp_len` in `engine.rs`)

The chrono parser is third-party; it enters the embedding as the oracle
`p : Nat → Bool` telling which prefix lengths of the candidate parse under
the format.  Positions are at character granularity (for ASCII input every
byte position is a char boundary, matching the Rust `is_char_boundary`
skips); `lineLen` is the candidate's length and the format string is a
char list iterated byte-wise as in the source. -/

def estAdd (w : Nat × Nat) (r : Nat × Nat) : Nat × Nat :=
  (w.1 + r.1, w.2 + r.2)

/-- `estimate_timestamp_len`: the `(min, max)` output length of a chrono
format string, summing per-specifier width contributions. -/
def estimate_timestamp_len : List Char → Nat × Nat
  | [] => (0, 0)
  | '%' :: '3' :: 'f' :: rest => estAdd (3, 3) (estimate_timestamp_len rest)
  | '%' :: '6' :: 'f' :: rest => estAdd (6, 6) (estimate_timestamp_len rest)
  | '%' :: '9' :: 'f' :: rest => estAdd (9, 9) (estimate_timestamp_len rest)
  | '%' :: ':' :: 'z' :: rest => estAdd (6, 6) (estimate_timestamp_len rest)
  | '%' :: 'Y' :: rest => estAdd (4, 4) (estimate_timestamp_len rest)
  | '%' :: 'C' :: rest => estAdd (2, 2) (estimate_timestamp_len rest)
  | '%' :: 'y' :: rest => estAdd (2, 2) (estimate_timestamp_len rest)
  | '%' :: 'm' :: rest => estAdd (2, 2) (estimate_timestamp_len rest)
  | '%' :: 'd' :: rest => estAdd (2, 2) (estimate_timestamp_len rest)
  | '%' :: 'e' :: rest => estAdd (2, 2) (estimate_timestamp_len rest)
  | '%' :: 'H' :: rest => estAdd (2, 2) (estimate_timestamp_len rest)
  | '%' :: 'I' :: rest => estAdd (2, 2) (estimate_timestamp_len rest)
  | '%' :: 'M' :: rest => estAdd (2, 2) (estimate_timestamp_len rest)
  | '%' :: 'S' :: rest => estAdd (2, 2) (estimate_timestamp_len rest)
  | '%' :: 'b' :: rest => estAdd (3, 3) (estimate_timestamp_len rest)
  | '%' :: 'h' :: rest => estAdd (3, 3) (estimate_timestamp_len rest)
  | '%' :: 'a' :: rest => estAdd (3, 3) (estimate_timestamp_len rest)
  | '%' :: 'j' :: rest => estAdd (3, 3) (estimate_timestamp_len rest)
  | '%' :: 'B' :: rest => estAdd (3, 9) (estimate_timestamp_len rest)
  | '%' :: 'A' :: rest => estAdd (3, 9) (estimate_timestamp_len rest)
  | '%' :: 'p' :: rest => estAdd (2, 2) (estimate_timestamp_len rest)
  | '%' :: 'P' :: rest => estAdd (2, 2) (estimate_timestamp_len rest)
  | '%' :: 'z' :: rest => estAdd (5, 5) (estimate_timestamp_len rest)
  | '%' :: 'Z' :: rest => estAdd (3, 5) (estimate_timestamp_len rest)
  | '%' :: 'u' :: rest => estAdd (1, 1) (estimate_timestamp_len rest)
  | '%' :: 'w' :: rest => estAdd (1, 1) (estimate_timestamp_len rest)
  | '%' :: 'f' :: rest => estAdd (1, 9) (estimate_timestamp_len rest)
  | '%' :: '%' :: rest => estAdd (1, 1) (estimate_timestamp_len rest)
  | ['%'] => (1, 1)
  | '%' :: _ :: rest => estAdd (1, 6) (estimate_timestamp_len rest)
  | _ :: rest => estAdd (1, 1) (estimate_timestamp_len rest)

/-- The descending loop `for end in (lo..=hi).rev()`: the first prefix
length that parses, trying `hi`, `hi - 1`, ..., `lo`. -/
def scanDesc (p : Nat → Bool) (lo : Nat) : Nat → Option Nat
  | 0 => if lo = 0 then (if p 0 then some 0 else none) else none
  | h + 1 =>
    if h + 1 < lo then none
    else if p (h + 1) then some (h + 1)
    else scanDesc p lo h

/-- The list of lengths `hi, hi - 1, ..., lo` that the descending loop
tries, for stating which attempts the search makes. -/
def descRange (lo : Nat) : Nat → List Nat
  | 0 => if lo = 0 then [0] else []
  | h + 1 => if h + 1 < lo then [] else (h + 1) :: descRange lo h

/-- `parse_timestamp_prefix`: scan the width window `[min_ts - 1,
max_ts + 1]` (clamped to the line) longest to shortest; on failure scan
from just below the window down to `min(format length, line length)`, then
from the line's length down to just above the window. -/
def parseTimestampSearch (p : Nat → Bool) (lineLen : Nat)
    (fmt : List Char) : Option Nat :=
  let mm := estimate_timestamp_len fmt
  let lo := min (max (mm.1 - 1) 1) lineLen
  let hi := min (mm.2 + 1) lineLen
  match scanDesc p lo hi with
  | some n => some n
  | none =>
    match (if lo = 0 then none
           else scanDesc p (min fmt.length lineLen) (lo - 1)) with
    | some n => some n
    | none => scanDesc p (hi + 1) lineLen

/-- The caller's sequence in `LogLineIterator`: whole-string parse first
(`NaiveDateTime::parse_from_str`), then `parse_timestamp_prefix`. -/
def parseTimestampFull (p : Nat → Bool) (lineLen : Nat) (fmt : List Char) :
    Option Nat :=
  if p lineLen then some lineLen else parseTimestampSearch p lineLen fmt

/-! ## Determinism up to JSON field iteration order (C7 stack)

Re-running `analyze` on unchanged inputs re-runs the identical pure
computation except for one internal degree of freedom: the iteration order
of each line's JSON auto-extraction `HashMap` (Rust's `HashMap` is seeded
per instance, so two runs of the same program may iterate the same map in
different orders).  Two runs are therefore modelled as two Phase 1 outputs
related by `plRel`: identical lines and rule matches, and per line the same
JSON field map up to permutation of the iteration order. -/

/-- The same JSON field map in two iteration orders (keys unduplicated, as
in a map). -/
def jfRel : Option (List (String × StateValue)) →
    Option (List (String × StateValue)) → Prop
  | none, none => True
  | some l1, some l2 => l1.Perm l2 ∧ (l1.map Prod.fst).Nodup
  | _, _ => False

/-- Two `ProcessedLine`s from two runs on unchanged inputs: equal except
for the JSON field iteration order. -/
def plRel (a b : ProcessedLine) : Prop :=
  a.line = b.line ∧ a.rule_matches = b.rule_matches ∧
  jfRel a.json_fields b.json_fields

/-- Pairing of a relation with equal source indices (heap entries of two
related runs). -/
def pairRel {α : Type} (r : α → α → Prop) (x y : α × Nat) : Prop :=
  r x.1 y.1 ∧ x.2 = y.2

/-- The diff that the JSON auto-extraction records for one field, relative
to a fixed pre-line state (valid when the field keys are unduplicated). -/
def jsonDiff (st : StateMap) (kv : String × StateValue) :
    Option (String × Option StateValue × Option StateValue) :=
  let old := (smGet st kv.1).map (fun tv => tv.value)
  if optSvEq old (some kv.2) then none else some (kv.1, old, some kv.2)

/-- Same accumulator in two runs: everything equal, the collected
`state_changes` up to order. -/
def accRel (a b : Phase2Acc) : Prop :=
  a.sm = b.sm ∧ a.progress = b.progress ∧
  a.rule_matches = b.rule_matches ∧
  a.pattern_matches = b.pattern_matches ∧
  a.state_changes.Perm b.state_changes

/-- One JSON log line whose field map holds the two fields `a` and `b`,
as Phase 1 may present it in either iteration order. -/
def c7Line : LogLine :=
  { timestamp := 0, source_id := 0, raw := "x", content := "x" }

/-- First run's Phase 1 output for `c7Line`: fields iterated `a` first. -/
def c7P1 : ProcessedLine :=
  { line := c7Line, rule_matches := []
    json_fields := some
      [("a", StateValue.integer 1), ("b", StateValue.integer 2)] }

/-- Second run's Phase 1 output for `c7Line`: fields iterated `b` first. -/
def c7P2 : ProcessedLine :=
  { line := c7Line, rule_matches := []
    json_fields := some
      [("b", StateValue.integer 2), ("a", StateValue.integer 1)] }

/-- An unbounded time range. -/
def c7TR : TimeRange := { start := none, stop := none }

/-! ## Theorems -/

theorem klt_asymm {K : Type} [DecidableEq K] [MapKey K] (a b : K)
    (h : MapKey.klt a b = true) : MapKey.klt b a = false := by
  by_contra h2
  rw [Bool.not_eq_false] at h2
  have := MapKey.klt_trans a b a h h2
  rw [MapKey.klt_irrefl] at this
  cases this

theorem smGet_insert_self {K V : Type} [DecidableEq K] [MapKey K] (k : K)
    (v : V) (m : List (K × V)) : smGet (smInsert k v m) k = some v := by
  induction m with
  | nil => simp [smInsert, smGet]
  | cons h t ih =>
    obtain ⟨k', v'⟩ := h
    by_cases hlt : MapKey.klt k k' = true
    · simp [smInsert, hlt, smGet]
    · by_cases heq : k = k'
      · simp [smInsert, hlt, heq, smGet, MapKey.klt_irrefl]
      · simp [smInsert, hlt, heq, smGet, ih]

theorem smGet_insert_ne {K V : Type} [DecidableEq K] [MapKey K] (k j : K)
    (v : V) (m : List (K × V)) (hne : j ≠ k) :
    smGet (smInsert k v m) j = smGet m j := by
  induction m with
  | nil => simp [smInsert, smGet, hne]
  | cons h t ih =>
    obtain ⟨k', v'⟩ := h
    by_cases hlt : MapKey.klt k k' = true
    · simp [smInsert, hlt, smGet, hne]
    · by_cases heq : k = k'
      · subst heq
        simp [smInsert, hlt, smGet, hne]
      · by_cases hj : j = k'
        · simp [smInsert, hlt, heq, smGet, hj]
        · simp [smInsert, hlt, heq, smGet, hj, ih]

theorem smInsert_insert_self {K V : Type} [DecidableEq K] [MapKey K] (k : K)
    (v w : V) (m : List (K × V)) :
    smInsert k v (smInsert k w m) = smInsert k v m := by
  induction m with
  | nil => simp [smInsert, MapKey.klt_irrefl]
  | cons h t ih =>
    obtain ⟨k', v'⟩ := h
    by_cases hlt : MapKey.klt k k' = true
    · simp [smInsert, hlt, MapKey.klt_irrefl]
    · by_cases heq : k = k'
      · simp [smInsert, hlt, heq, MapKey.klt_irrefl]
      · simp [smInsert, hlt, heq, ih]

theorem smInsert_comm {K V : Type} [DecidableEq K] [MapKey K] (a b : K)
    (va vb : V) (m : List (K × V)) (hne : a ≠ b) :
    smInsert a va (smInsert b vb m) = smInsert b vb (smInsert a va m) := by
  induction m with
  | nil =>
    rcases MapKey.klt_total a b hne with h | h
    · simp [smInsert, h, klt_asymm a b h, hne, hne.symm]
    · simp [smInsert, h, klt_asymm b a h, hne, hne.symm]
  | cons hd t ih =>
    obtain ⟨k', v'⟩ := hd
    by_cases hbk : MapKey.klt b k' = true
    · by_cases hak : MapKey.klt a k' = true
      · rcases MapKey.klt_total a b hne with h | h
        · simp [smInsert, hbk, hak, h, klt_asymm a b h, hne, hne.symm]
        · simp [smInsert, hbk, hak, h, klt_asymm b a h, hne, hne.symm]
      · by_cases haeq : a = k'
        · subst haeq
          simp [smInsert, hbk, hak, klt_asymm b a hbk, hne, hne.symm,
            MapKey.klt_irrefl]
        · have hka : MapKey.klt k' a = true := by
            rcases MapKey.klt_total a k' haeq with h | h
            · exact absurd h hak
            · exact h
          have hba : MapKey.klt b a = true := MapKey.klt_trans b k' a hbk hka
          simp [smInsert, hbk, hak, haeq, klt_asymm b a hba, hne, hne.symm]
    · by_cases hbeq : b = k'
      · subst hbeq
        by_cases hab : MapKey.klt a b = true
        · simp [smInsert, hbk, hab, klt_asymm a b hab, MapKey.klt_irrefl,
            hne, hne.symm]
        · have hba : MapKey.klt b a = true := by
            rcases MapKey.klt_total a b hne with h | h
            · exact absurd h hab
            · exact h
          simp [smInsert, hbk, hab, hba, hne, hne.symm, MapKey.klt_irrefl]
      · by_cases hak : MapKey.klt a k' = true
        · have hkb : MapKey.klt k' b = true := by
            rcases MapKey.klt_total b k' hbeq with h | h
            · exact absurd h hbk
            · exact h
          have hab : MapKey.klt a b = true := MapKey.klt_trans a k' b hak hkb
          simp [smInsert, hbk, hbeq, hak, hab, klt_asymm a b hab, hne,
            hne.symm]
        · by_cases haeq : a = k'
          · subst haeq
            have hab : MapKey.klt a b = true := by
              rcases MapKey.klt_total b a hne.symm with h | h
              · exact absurd h hbk
              · exact h
            simp [smInsert, hbk, hbeq, hak, hab, klt_asymm a b hab,
              MapKey.klt_irrefl, hne, hne.symm]
          · simp [smInsert, hbk, hbeq, hak, haeq, ih]

theorem lexLtB_false_iff {α : Type} (ts : α → Int) (x y : α × Nat) :
    lexLtB ts x y = false ↔ lexLe ts y x := by
  simp only [lexLtB, lexLe, Bool.or_eq_false_iff, Bool.and_eq_false_iff,
    decide_eq_false_iff_not, not_lt]
  constructor
  · rintro ⟨h1, h2 | h2⟩ <;> omega
  · intro h
    constructor
    · omega
    · by_cases he : ts x.1 = ts y.1
      · right; omega
      · left; exact he

theorem lexLtB_true_imp {α : Type} (ts : α → Int) (x y : α × Nat)
    (h : lexLtB ts x y = true) : lexLe ts x y := by
  simp only [lexLtB, Bool.or_eq_true, Bool.and_eq_true, decide_eq_true_eq]
    at h
  rcases h with h | ⟨h1, h2⟩
  · exact Or.inl h
  · exact Or.inr ⟨h1, le_of_lt h2⟩

theorem lexLe_trans {α : Type} (ts : α → Int) {x y z : α × Nat}
    (h1 : lexLe ts x y) (h2 : lexLe ts y z) : lexLe ts x z := by
  rcases h1 with h1 | ⟨h1, h1i⟩ <;> rcases h2 with h2 | ⟨h2, h2i⟩ <;>
    simp only [lexLe] <;> omega

theorem popMin_isSome {α : Type} (ts : α → Int) (x : α × Nat)
    (xs : List (α × Nat)) : (popMin ts (x :: xs)).isSome := by
  cases h : popMin ts xs with
  | none => simp [popMin, h]
  | some p =>
    obtain ⟨m, rest⟩ := p
    by_cases hlt : lexLtB ts m x <;> simp [popMin, h, hlt]

theorem popMin_spec {α : Type} (ts : α → Int) :
    ∀ (h : List (α × Nat)) (m : α × Nat) (rest : List (α × Nat)),
      popMin ts h = some (m, rest) →
      (m :: rest).Perm h ∧ ∀ x ∈ rest, lexLe ts m x := by
  intro h
  induction h with
  | nil => intro m rest hp; simp [popMin] at hp
  | cons x xs ih =>
    intro m rest hp
    rw [popMin] at hp
    cases hpm : popMin ts xs with
    | none =>
      rw [hpm] at hp
      have hxs : xs = [] := by
        cases xs with
        | nil => rfl
        | cons y ys =>
          have := popMin_isSome ts y ys
          rw [hpm] at this
          simp at this
      obtain ⟨rfl, rfl⟩ : m = x ∧ rest = [] := by
        constructor <;> injection hp with h1 <;>
          simp_all
      subst hxs
      exact ⟨List.Perm.refl _, by simp⟩
    | some p =>
      obtain ⟨m', rest'⟩ := p
      rw [hpm] at hp
      have hp2 : (if lexLtB ts m' x = true then some (m', x :: rest')
          else some (x, xs)) = some (m, rest) := hp
      obtain ⟨hperm', hmin'⟩ := ih m' rest' hpm
      by_cases hlt : lexLtB ts m' x = true
      · rw [if_pos hlt] at hp2
        obtain ⟨rfl, rfl⟩ : m = m' ∧ rest = x :: rest' := by
          constructor <;> injection hp2 with h1 <;> simp_all
        constructor
        · exact (List.Perm.swap x m rest').trans (hperm'.cons x)
        · intro y hy
          rcases List.mem_cons.mp hy with rfl | hy'
          · exact lexLtB_true_imp ts m y hlt
          · exact hmin' y hy'
      · rw [if_neg hlt] at hp2
        obtain ⟨rfl, rfl⟩ : m = x ∧ rest = xs := by
          constructor <;> injection hp2 with h1 <;> simp_all
        refine ⟨List.Perm.refl _, ?_⟩
        have hxm' : lexLe ts m m' :=
          (lexLtB_false_iff ts m' m).mp (by simpa using hlt)
        intro y hy
        have hy2 : y ∈ m' :: rest' := hperm'.mem_iff.mpr hy
        rcases List.mem_cons.mp hy2 with rfl | hyrest
        · exact hxm'
        · exact lexLe_trans ts hxm' (hmin' y hyrest)

theorem getD_set_ne {β : Type} (l : List β) (i j : Nat) (a d : β)
    (h : i ≠ j) : (l.set i a).getD j d = l.getD j d := by
  simp [List.getD_eq_getElem?_getD, List.getElem?_set_ne h]

theorem getD_set_self {β : Type} (l : List β) (i : Nat) (a d : β)
    (h : i < l.length) : (l.set i a).getD i d = a := by
  simp [List.getD_eq_getElem?_getD, List.getElem?_set_self h]

theorem getD_lt_length {β : Type} (l : List β) (i : Nat) (d : β)
    (h : l.getD i d ≠ d) : i < l.length := by
  by_contra hge
  rw [List.getD_eq_getElem?_getD, List.getElem?_eq_none (not_lt.mp hge)] at h
  simp at h

theorem getD_mem_of_lt {β : Type} (l : List β) (i : Nat) (d : β)
    (h : i < l.length) : l.getD i d ∈ l := by
  rw [List.getD_eq_getElem?_getD, List.getElem?_eq_getElem h]
  exact List.getElem_mem h

theorem mergeInv_step {α : Type} (ts : α → Int) {heap rest : List (α × Nat)}
    {iters : List (List α)} {e : α} {i : Nat}
    (hinv : MergeInv ts heap iters)
    (hpop : popMin ts heap = some ((e, i), rest)) :
    MergeInv ts rest iters ∧
    ∀ f fs, iters.getD i [] = f :: fs →
      ts e ≤ ts f ∧ MergeInv ts ((f, i) :: rest) (iters.set i fs) := by
  obtain ⟨hperm, _⟩ := popMin_spec ts heap (e, i) rest hpop
  have hmem : ∀ x ∈ rest, x ∈ heap := fun x hx =>
    hperm.subset (List.mem_cons_of_mem _ hx)
  have hei : (e, i) ∈ heap := hperm.subset (List.mem_cons_self _ _)
  refine ⟨⟨fun x hx => hinv.1 x (hmem x hx), hinv.2⟩, ?_⟩
  intro f fs hfi
  have hilen : i < iters.length := by
    apply getD_lt_length iters i []
    rw [hfi]; simp
  have hpw : (f :: fs).Pairwise (fun a b => ts a ≤ ts b) := by
    have := hinv.2 (iters.getD i []) (getD_mem_of_lt iters i [] hilen)
    rwa [hfi] at this
  refine ⟨hinv.1 (e, i) hei f (by rw [hfi]; exact List.mem_cons_self f fs), ?_, ?_⟩
  · intro x hx f' hf'
    rcases List.mem_cons.mp hx with rfl | hx'
    · rw [getD_set_self iters i fs [] hilen] at hf'
      exact (List.pairwise_cons.mp hpw).1 f' hf'
    · by_cases hxi : x.2 = i
      · rw [hxi, getD_set_self iters i fs [] hilen] at hf'
        exact hinv.1 x (hmem x hx') f' (by
          rw [hxi, hfi]; exact List.mem_cons_of_mem f hf')
      · rw [getD_set_ne iters i x.2 fs [] (Ne.symm hxi)] at hf'
        exact hinv.1 x (hmem x hx') f' hf'
  · intro l hl
    rcases List.mem_or_eq_of_mem_set hl with hl' | rfl
    · exact hinv.2 l hl'
    · exact hpw.of_cons

theorem mergeRun_lowerBound {α : Type} (ts : α → Int) (m : α × Nat) :
    ∀ (fuel : Nat) (heap : List (α × Nat)) (iters : List (List α)),
      MergeInv ts heap iters → (∀ x ∈ heap, lexLe ts m x) →
      ∀ y ∈ mergeRun ts fuel heap iters, lexLe ts m y := by
  intro fuel
  induction fuel with
  | zero => intro heap iters _ _ y hy; simp [mergeRun] at hy
  | succ n ih =>
    intro heap iters hinv hbd y hy
    cases hpop : popMin ts heap with
    | none => simp only [mergeRun, hpop] at hy; simp at hy
    | some pr =>
      obtain ⟨⟨e, i⟩, rest⟩ := pr
      obtain ⟨hperm, hmin⟩ := popMin_spec ts heap (e, i) rest hpop
      obtain ⟨hinvrest, hstep⟩ := mergeInv_step ts hinv hpop
      have hme : lexLe ts m (e, i) :=
        hbd _ (hperm.subset (List.mem_cons_self _ _))
      cases hit : iters.getD i [] with
      | nil =>
        simp only [mergeRun, hpop, hit] at hy
        rcases List.mem_cons.mp hy with rfl | hy'
        · exact hme
        · exact ih rest iters hinvrest
            (fun x hx => hbd x (hperm.subset (List.mem_cons_of_mem _ hx)))
            y hy'
      | cons f fs =>
        simp only [mergeRun, hpop, hit] at hy
        obtain ⟨hef, hinv'⟩ := hstep f fs hit
        rcases List.mem_cons.mp hy with rfl | hy'
        · exact hme
        · apply ih _ _ hinv' ?_ y hy'
          intro x hx
          rcases List.mem_cons.mp hx with rfl | hx'
          · have hme' : ts m.1 < ts e ∨ (ts m.1 = ts e ∧ m.2 ≤ i) := hme
            show ts m.1 < ts f ∨ (ts m.1 = ts f ∧ m.2 ≤ i)
            omega
          · exact hbd x (hperm.subset (List.mem_cons_of_mem _ hx'))

theorem mergeRun_pairwise {α : Type} (ts : α → Int) :
    ∀ (fuel : Nat) (heap : List (α × Nat)) (iters : List (List α)),
      MergeInv ts heap iters →
      List.Pairwise (lexLe ts) (mergeRun ts fuel heap iters) := by
  intro fuel
  induction fuel with
  | zero => intro heap iters _; simp [mergeRun]
  | succ n ih =>
    intro heap iters hinv
    cases hpop : popMin ts heap with
    | none => simp [mergeRun, hpop]
    | some pr =>
      obtain ⟨⟨e, i⟩, rest⟩ := pr
      obtain ⟨hperm, hmin⟩ := popMin_spec ts heap (e, i) rest hpop
      obtain ⟨hinvrest, hstep⟩ := mergeInv_step ts hinv hpop
      cases hit : iters.getD i [] with
      | nil =>
        simp only [mergeRun, hpop, hit]
        refine List.Pairwise.cons ?_ (ih rest iters hinvrest)
        intro y hy
        exact mergeRun_lowerBound ts (e, i) n rest iters hinvrest hmin y hy
      | cons f fs =>
        simp only [mergeRun, hpop, hit]
        obtain ⟨hef, hinv'⟩ := hstep f fs hit
        have hbd : ∀ x ∈ (f, i) :: rest, lexLe ts (e, i) x := by
          intro x hx
          rcases List.mem_cons.mp hx with rfl | hx'
          · show ts e < ts f ∨ (ts e = ts f ∧ i ≤ i)
            rcases lt_or_eq_of_le hef with h | h
            · exact Or.inl h
            · exact Or.inr ⟨h, le_refl i⟩
          · exact hmin x hx'
        refine List.Pairwise.cons ?_ (ih _ _ hinv')
        intro y hy
        exact mergeRun_lowerBound ts (e, i) n _ _ hinv' hbd y hy

theorem mergeInv_init {α : Type} (ts : α → Int) (srcs : List (List α))
    (hs : ∀ l ∈ srcs, l.Pairwise (fun a b => ts a ≤ ts b)) :
    MergeInv ts (initHeap srcs) (initIters srcs) := by
  constructor
  · intro x hx f hf
    obtain ⟨p, hp, hx2⟩ := List.mem_filterMap.mp hx
    obtain ⟨e, hhead, heq⟩ := Option.map_eq_some'.mp hx2
    subst heq
    have hget : srcs[p.1]? = some p.2 := List.mem_enum_iff_getElem?.mp hp
    have htail : (initIters srcs).getD p.1 [] = p.2.tail := by
      rw [initIters, List.getD_eq_getElem?_getD, List.getElem?_map, hget]
      rfl
    rw [htail] at hf
    have hsorted : p.2.Pairwise (fun a b => ts a ≤ ts b) := by
      apply hs
      exact List.mem_iff_getElem?.mpr ⟨p.1, hget⟩
    cases hl2 : p.2 with
    | nil => rw [hl2] at hhead; simp at hhead
    | cons a t =>
      rw [hl2] at hhead htail hsorted
      simp at hhead
      subst hhead
      rw [hl2] at hf
      exact (List.pairwise_cons.mp hsorted).1 f hf
  · intro l hl
    obtain ⟨l0, hl0, rfl⟩ := List.mem_map.mp hl
    exact (hs l0 hl0).sublist (List.tail_sublist l0)

/-- Output of the merge is sorted by `(timestamp, source index)`. -/
theorem mergedPairs_pairwise {α : Type} (ts : α → Int) (srcs : List (List α))
    (hs : ∀ l ∈ srcs, l.Pairwise (fun a b => ts a ≤ ts b)) :
    List.Pairwise (lexLe ts) (mergedPairs ts srcs) :=
  mergeRun_pairwise ts _ _ _ (mergeInv_init ts srcs hs)

theorem mergedList_chain' {α : Type} (ts : α → Int) (srcs : List (List α))
    (hs : ∀ l ∈ srcs, l.Pairwise (fun a b => ts a ≤ ts b)) :
    (mergedList ts srcs).Chain' (fun a b => ts a ≤ ts b) := by
  apply List.Pairwise.chain'
  refine List.Pairwise.map Prod.fst ?_ (mergedPairs_pairwise ts srcs hs)
  intro x y hxy
  rcases hxy with h | ⟨h, _⟩
  · exact le_of_lt h
  · exact le_of_eq h

/-- C1: if every per-source sequence has non-decreasing timestamps, the
merged stream (both `MergedLogStream` over `LogLine`s and
`ProcessedLineMerger` over `ProcessedLine`s) yields entries in
non-decreasing timestamp order, and entries with equal timestamps are
yielded in ascending order of their source registration index (the
`Pairwise lexLe` conjuncts over the index-tagged `mergedPairs`). -/
theorem c1_merged_stream_ordering
    (srcsL : List (List LogLine)) (srcsP : List (List ProcessedLine))
    (hL : ∀ l ∈ srcsL, l.Chain' (fun a b => a.timestamp ≤ b.timestamp))
    (hP : ∀ l ∈ srcsP,
      l.Chain' (fun a b => a.line.timestamp ≤ b.line.timestamp)) :
    List.Pairwise (lexLe LogLine.timestamp)
      (mergedPairs LogLine.timestamp srcsL) ∧
    (MergedLogStream.run srcsL).Chain'
      (fun a b => a.timestamp ≤ b.timestamp) ∧
    List.Pairwise (lexLe (fun p : ProcessedLine => p.line.timestamp))
      (mergedPairs (fun p : ProcessedLine => p.line.timestamp) srcsP) ∧
    (ProcessedLineMerger.run srcsP).Chain'
      (fun a b => a.line.timestamp ≤ b.line.timestamp) := by
  haveI : IsTrans LogLine (fun a b => a.timestamp ≤ b.timestamp) :=
    ⟨fun a b c hab hbc => le_trans hab hbc⟩
  haveI : IsTrans ProcessedLine
      (fun a b => a.line.timestamp ≤ b.line.timestamp) :=
    ⟨fun a b c hab hbc => le_trans hab hbc⟩
  have hL' : ∀ l ∈ srcsL, l.Pairwise (fun a b => a.timestamp ≤ b.timestamp) :=
    fun l hl => List.chain'_iff_pairwise.mp (hL l hl)
  have hP' : ∀ l ∈ srcsP,
      l.Pairwise (fun a b => a.line.timestamp ≤ b.line.timestamp) :=
    fun l hl => List.chain'_iff_pairwise.mp (hP l hl)
  exact ⟨mergedPairs_pairwise LogLine.timestamp srcsL hL',
    mergedList_chain' LogLine.timestamp srcsL hL',
    mergedPairs_pairwise (fun p : ProcessedLine => p.line.timestamp) srcsP hP',
    mergedList_chain' (fun p : ProcessedLine => p.line.timestamp) srcsP hP'⟩

/-- Witness for C1 at the three-source scenario of the specification
(sources at timestamps 1,4,7 / 2,5 / 3,6). -/
theorem c1_merged_stream_ordering_witness :
    ((∀ l ∈ [[wLine 1 0, wLine 4 0, wLine 7 0], [wLine 2 1, wLine 5 1],
        [wLine 3 2, wLine 6 2]],
      l.Chain' (fun a b => a.timestamp ≤ b.timestamp)) ∧
     (∀ l ∈ ([[{ line := wLine 1 0, rule_matches := [], json_fields := none }]] :
        List (List ProcessedLine)),
      l.Chain' (fun a b => a.line.timestamp ≤ b.line.timestamp))) ∧
    (MergedLogStream.run [[wLine 1 0, wLine 4 0, wLine 7 0],
        [wLine 2 1, wLine 5 1], [wLine 3 2, wLine 6 2]]).Chain'
      (fun a b => a.timestamp ≤ b.timestamp) :=
  ⟨⟨by norm_num [List.chain'_cons, wLine], by norm_num [List.chain'_cons, wLine]⟩,
    (c1_merged_stream_ordering
      [[wLine 1 0, wLine 4 0, wLine 7 0], [wLine 2 1, wLine 5 1],
        [wLine 3 2, wLine 6 2]]
      [[{ line := wLine 1 0, rule_matches := [], json_fields := none }]]
      (by norm_num [List.chain'_cons, wLine])
      (by norm_num [List.chain'_cons, wLine])).2.1⟩

/-- C2: for every call to the pattern evaluator and every pattern with a
non-empty predicate list (and progress in bounds, the evaluator's standing
invariant): if the predicate at the progress index holds and every earlier
predicate still holds, progress advances by exactly one, except that on
reaching the number of predicates exactly one match carrying the state
manager's snapshot is emitted and progress resets to 0 (so the pattern may
re-fire); if the predicate at the progress index holds but some earlier
predicate no longer holds, progress resets to 0 with no advance and no
match; if the predicate at the progress index does not hold, nothing
changes.  `evalOnePattern` is the per-pattern body of
`evaluate_patterns`. -/
theorem c2_pattern_progress (pattern : Pattern) (progress : Nat)
    (st : StateManager) (hlt : progress < pattern.predicates.length) :
    (evaluate_predicate (pattern.predicates.get ⟨progress, hlt⟩) st = true →
      ((∀ k (hk : k < progress),
          evaluate_predicate
            (pattern.predicates.get ⟨k, lt_trans hk hlt⟩) st = true) →
        evalOnePattern pattern progress st =
          (if progress + 1 = pattern.predicates.length then
            (0, some (pattern.id, st.snapshot))
          else (progress + 1, none))) ∧
      ((∃ k, ∃ hk : k < progress,
          evaluate_predicate
            (pattern.predicates.get ⟨k, lt_trans hk hlt⟩) st = false) →
        evalOnePattern pattern progress st = (0, none))) ∧
    (evaluate_predicate (pattern.predicates.get ⟨progress, hlt⟩) st = false →
      evalOnePattern pattern progress st = (progress, none)) := by
  have hne : pattern.predicates.isEmpty = false := by
    cases hp : pattern.predicates with
    | nil => rw [hp] at hlt; simp at hlt
    | cons a l => simp
  have hget : pattern.predicates.get? progress =
      some (pattern.predicates.get ⟨progress, hlt⟩) :=
    List.get?_eq_get hlt
  refine ⟨fun hc => ⟨fun hall => ?_, fun hex => ?_⟩, fun hc => ?_⟩
  · have hrange : (List.range progress).all
        (fun prev_idx =>
          match pattern.predicates.get? prev_idx with
          | some p => evaluate_predicate p st
          | none => true) = true := by
      rw [List.all_eq_true]
      intro k hk
      have hk' : k < progress := List.mem_range.mp hk
      rw [List.get?_eq_get (lt_trans hk' hlt)]
      exact hall k hk'
    rw [evalOnePattern, hne, hget]
    simp only [Bool.false_eq_true, if_false, hc, if_true, hrange]
  · obtain ⟨k, hk, hkf⟩ := hex
    have hrange : (List.range progress).all
        (fun prev_idx =>
          match pattern.predicates.get? prev_idx with
          | some p => evaluate_predicate p st
          | none => true) = false := by
      rw [List.all_eq_false]
      refine ⟨k, List.mem_range.mpr hk, ?_⟩
      rw [List.get?_eq_get (lt_trans hk hlt)]
      simpa using hkf
    rw [evalOnePattern, hne, hget]
    simp only [Bool.false_eq_true, if_false, hc, if_true, hrange]
  · rw [evalOnePattern, hne, hget]
    simp only [Bool.false_eq_true, if_false, hc]

/-- Witness for C2: with both predicates satisfied and progress 1, the
pattern fires once with the snapshot and resets. -/
theorem c2_pattern_progress_witness :
    evaluate_predicate (c2Pat.predicates.get ⟨1, by decide⟩) c2St = true ∧
    evalOnePattern c2Pat 1 c2St = (0, some (c2Pat.id, c2St.snapshot)) := by
  refine ⟨by decide, ?_⟩
  have h := ((c2_pattern_progress c2Pat 1 c2St (by decide)).1
    (by decide)).1
    (fun k hk => by
      have hk0 : k = 0 := by omega
      subst hk0
      have hh : evaluate_predicate
          (c2Pat.predicates.get ⟨0, by decide⟩) c2St = true := by decide
      exact hh)
  simpa using h

/-- **C3** (corrected).  `accumulate` combines by type pair — String+String
comma-joins, Integer+Integer sums, Float+Float sums in `f64`, mixed
Integer/Float sums as `f64` after an `i64 as f64` cast, any other pairing
(and an absent key) replaces with the new value.  Accumulating `a` then `b`
of the same type equals accumulating `a ⊕ b` once for String (comma-join,
unconditionally) and for Integer (exact sum, provided the existing value
under the key is not a Float — a Float prior routes both sides through
rounded `f64` arms); for Float the law holds when the key is absent, but —
contrary to the claim — not in general: `f64` addition is not associative
(see the counterexample). -/
theorem c3_accumulate_semantics (s : StateMap) (k : String) (t t0 : Int) :
    (smGet s k = none →
      ∀ w, accumulate s k w t = smInsert k { value := w, set_at := t } s) ∧
    (∀ a b, smGet s k = some { value := StateValue.string a, set_at := t0 } →
      accumulate s k (.string b) t =
        smInsert k { value := StateValue.string (a ++ "," ++ b), set_at := t }
          s) ∧
    (∀ i j, smGet s k = some { value := StateValue.integer i, set_at := t0 } →
      accumulate s k (.integer j) t =
        smInsert k { value := StateValue.integer (i + j), set_at := t } s) ∧
    (∀ p q, smGet s k = some { value := StateValue.float p, set_at := t0 } →
      accumulate s k (.float q) t =
        smInsert k { value := StateValue.float (f64Add p q), set_at := t }
          s) ∧
    (∀ i q, smGet s k = some { value := StateValue.integer i, set_at := t0 } →
      accumulate s k (.float q) t =
        smInsert k
          { value := StateValue.float (f64Add (f64OfInt i) q), set_at := t }
          s) ∧
    (∀ p j, smGet s k = some { value := StateValue.float p, set_at := t0 } →
      accumulate s k (.integer j) t =
        smInsert k
          { value := StateValue.float (f64Add p (f64OfInt j)), set_at := t }
          s) ∧
    (∀ v w, smGet s k = some { value := v, set_at := t0 } →
      accumCombines v w = false →
      accumulate s k w t = smInsert k { value := w, set_at := t } s) ∧
    (∀ a b, accumulate (accumulate s k (.string a) t) k (.string b) t =
      accumulate s k (.string (a ++ "," ++ b)) t) ∧
    (∀ i j, (∀ q t1, smGet s k ≠
        some { value := StateValue.float q, set_at := t1 }) →
      accumulate (accumulate s k (.integer i) t) k (.integer j) t =
        accumulate s k (.integer (i + j)) t) ∧
    (∀ p q, smGet s k = none →
      accumulate (accumulate s k (.float p) t) k (.float q) t =
        accumulate s k (.float (f64Add p q)) t) := by
  refine ⟨?_, ?_, ?_, ?_, ?_, ?_, ?_, ?_, ?_, ?_⟩
  · intro hn w; rw [accumulate, hn]
  · intro a b hg; rw [accumulate, hg]
  · intro i j hg; rw [accumulate, hg]
  · intro p q hg; rw [accumulate, hg]
  · intro i q hg; rw [accumulate, hg]
  · intro p j hg; rw [accumulate, hg]
  · intro v w hg hcomb
    rw [accumulate, hg]
    cases v <;> cases w <;> simp_all [accumCombines]
  · intro a b
    cases hg : smGet s k with
    | none =>
      simp only [accumulate, hg, smGet_insert_self, smInsert_insert_self]
    | some tv =>
      obtain ⟨v0, ts0⟩ := tv
      cases v0 <;>
        simp only [accumulate, hg, smGet_insert_self,
          smInsert_insert_self] <;>
        simp [String.append_assoc]
  · intro i j hnf
    cases hg : smGet s k with
    | none =>
      simp only [accumulate, hg, smGet_insert_self, smInsert_insert_self]
    | some tv =>
      obtain ⟨v0, ts0⟩ := tv
      cases v0 with
      | string a =>
        simp only [accumulate, hg, smGet_insert_self, smInsert_insert_self]
      | integer a =>
        simp only [accumulate, hg, smGet_insert_self, smInsert_insert_self]
        simp [add_assoc]
      | float a => exact absurd hg (hnf a ts0)
      | bool a =>
        simp only [accumulate, hg, smGet_insert_self, smInsert_insert_self]
  · intro p q hn
    simp only [accumulate, hn, smGet_insert_self, smInsert_insert_self]

/-- **C3** counterexample to the claimed Float associativity
`accumulate(accumulate(s, a), b) = accumulate(s, a + b)`: with the double
`2 ^ 53` stored under `x` (unit in the last place 2), accumulating
`Float 1` twice leaves `2 ^ 53` (each exact sum `2 ^ 53 + 1` is a tie,
rounded down to even), while accumulating the single combined
`Float (1 + 1) = Float 2` yields the representable `2 ^ 53 + 2` — `f64`
addition is not associative, so the two sides differ.  (`f64Add 1 1 = 2`
is exact, so the refutation covers both the exact and the rounded reading
of `a + b`.) -/
theorem c3_float_accumulate_counterexample :
    f64Add 1 1 = 2 ∧
    accumulate (accumulate c3FMap "x" (.float 1) 1) "x" (.float 1) 1 ≠
      accumulate c3FMap "x" (.float 2) 1 := by
  constructor
  · decide
  · decide

/-- Witness for C3 at concrete maps: Integer 3 ⊕ Integer 4 = Integer 7
under `x`, and Float `2 ^ 53` ⊕ Float 1 stays `2 ^ 53` (the `f64` sum
rounds back down), exercising both an exact and a rounding arm. -/
theorem c3_accumulate_semantics_witness :
    smGet c3Map "x" = some { value := StateValue.integer 3, set_at := 0 } ∧
    accumulate c3Map "x" (.integer 4) 1 =
      smInsert "x" { value := StateValue.integer 7, set_at := 1 } c3Map ∧
    smGet c3FMap "x" =
      some { value := StateValue.float 9007199254740992, set_at := 0 } ∧
    accumulate c3FMap "x" (.float 1) 1 =
      smInsert "x" { value := StateValue.float 9007199254740992, set_at := 1 }
        c3FMap := by
  refine ⟨by decide, ?_, by decide, ?_⟩
  · have h := (c3_accumulate_semantics c3Map "x" 1 0).2.2.1 3 4 (by decide)
    simpa using h
  · have h := (c3_accumulate_semantics c3FMap "x" 1 0).2.2.2.1
      9007199254740992 1 (by decide)
    rw [h]
    have he : f64Add 9007199254740992 1 = (9007199254740992 : ℚ) := by decide
    rw [he]

/-! ## No-op mutations are not emitted (C4 stack) -/

theorem applyOneRule_changes_ne (e : List (String × StateValue)) (t : Int)
    (s : StateMap) (r : ExtractionRule) :
    ∀ c ∈ (applyOneRule e t s r).2, optSvEq c.2.1 c.2.2 = false := by
  intro c hc
  obtain ⟨rid, rty, rkey, rpat, rstat, rmode⟩ := r
  cases rty with
  | clear =>
    simp only [applyOneRule] at hc
    cases hg : smGet s rkey with
    | some tv =>
      rw [hg] at hc
      simp at hc
      subst hc
      rfl
    | none => rw [hg] at hc; simp at hc
  | static =>
    cases rmode <;>
      (simp only [applyOneRule] at hc
       cases hsv : rstat with
       | none => rw [hsv] at hc; simp at hc
       | some val =>
         rw [hsv] at hc
         simp only at hc
         split at hc
         · simp at hc
         · next h =>
             simp at hc
             subst hc
             simpa using h)
  | parsed =>
    cases rmode <;>
      (simp only [applyOneRule] at hc
       cases hsv : smGet e rkey with
       | none => rw [hsv] at hc; simp at hc
       | some val =>
         rw [hsv] at hc
         simp only at hc
         split at hc
         · simp at hc
         · next h =>
             simp at hc
             subst hc
             simpa using h)

theorem applyRulesLoop_changes_ne (e : List (String × StateValue)) (t : Int) :
    ∀ (rules : List ExtractionRule) (s : StateMap),
      ∀ c ∈ (applyRulesLoop e t s rules).2, optSvEq c.2.1 c.2.2 = false := by
  intro rules
  induction rules with
  | nil => intro s c hc; simp [applyRulesLoop] at hc
  | cons r rs ih =>
    intro s c hc
    simp only [applyRulesLoop] at hc
    rcases List.mem_append.mp hc with h | h
    · exact applyOneRule_changes_ne e t s r c h
    · exact ih _ c h

theorem apply_mutations_changes_ne (sm : StateManager) (sid : Nat)
    (e : List (String × StateValue)) (rules : List ExtractionRule) (t : Int) :
    ∀ c ∈ (sm.apply_mutations sid e rules t).2,
      optSvEq c.2.1 c.2.2 = false := by
  intro c hc
  exact applyRulesLoop_changes_ne e t rules _ c hc

theorem applyJsonFields_changes_ne (t : Int) :
    ∀ (fields : List (String × StateValue)) (s : StateMap),
      ∀ c ∈ (applyJsonFields s t fields).2, optSvEq c.2.1 c.2.2 = false := by
  intro fields
  induction fields with
  | nil => intro s c hc; simp [applyJsonFields] at hc
  | cons kv rest ih =>
    obtain ⟨key, sv⟩ := kv
    intro s c hc
    simp only [applyJsonFields] at hc
    split at hc
    · exact ih _ c hc
    · next h =>
      rcases List.mem_cons.mp hc with rfl | hc'
      · simpa using h
      · exact ih _ c hc'

theorem ruleLoop_changes_ne (rules : List LogRule) (sn : String)
    (line : LogLine) :
    ∀ (ms : List (Nat × List (String × StateValue))) (sm : StateManager),
      ∀ cr ∈ (ruleLoop rules sn line sm ms).2, ∀ sc ∈ cr.1,
        optSvEq sc.old_value sc.new_value = false := by
  intro ms
  induction ms with
  | nil => intro sm cr hcr; simp [ruleLoop] at hcr
  | cons m rest ih =>
    obtain ⟨rid, extracted⟩ := m
    intro sm cr hcr sc hsc
    simp only [ruleLoop] at hcr
    cases hk : lookupRule rules rid with
    | none =>
      rw [hk] at hcr
      exact ih sm cr hcr sc hsc
    | some rule =>
      rw [hk] at hcr
      simp only at hcr
      rcases List.mem_cons.mp hcr with rfl | hcr'
      · obtain ⟨c, hc, rfl⟩ := List.mem_map.mp hsc
        exact apply_mutations_changes_ne sm line.source_id extracted
          rule.extraction_rules line.timestamp c hc
      · exact ih _ cr hcr' sc hsc

theorem lineStep_changes_ne (rules : List LogRule) (patterns : List Pattern)
    (sm : StateManager) (progress : List Nat) (p : ProcessedLine) :
    (∀ sc ∈ (lineStep rules patterns sm progress p).json_changes,
      optSvEq sc.old_value sc.new_value = false) ∧
    (∀ cr ∈ (lineStep rules patterns sm progress p).rule_results,
      ∀ sc ∈ cr.1, optSvEq sc.old_value sc.new_value = false) := by
  constructor
  · intro sc hsc
    simp only [lineStep] at hsc
    cases hj : p.json_fields with
    | none => rw [hj] at hsc; simp at hsc
    | some fields =>
      rw [hj] at hsc
      simp only at hsc
      obtain ⟨c, hc, rfl⟩ := List.mem_map.mp hsc
      exact applyJsonFields_changes_ne p.line.timestamp fields _ c hc
  · intro cr hcr sc hsc
    simp only [lineStep] at hcr
    exact ruleLoop_changes_ne rules _ p.line _ _ cr hcr sc hsc

theorem foldl_processLine_changes_ne (rules : List LogRule)
    (patterns : List Pattern) :
    ∀ (l : List ProcessedLine) (acc : Phase2Acc),
      (∀ sc ∈ acc.state_changes,
        optSvEq sc.old_value sc.new_value = false) →
      ∀ sc ∈ (l.foldl (processLine rules patterns) acc).state_changes,
        optSvEq sc.old_value sc.new_value = false := by
  intro l
  induction l with
  | nil => intro acc hacc; exact hacc
  | cons p rest ih =>
    intro acc hacc
    rw [List.foldl_cons]
    apply ih
    intro sc hsc
    simp only [processLine] at hsc
    rcases List.mem_append.mp hsc with h | h
    · rcases List.mem_append.mp h with h2 | h2
      · exact hacc sc h2
      · exact (lineStep_changes_ne rules patterns acc.sm acc.progress p).1
          sc h2
    · obtain ⟨cs, hcs, hsc2⟩ := List.mem_flatten.mp h
      obtain ⟨cr, hcr, rfl⟩ := List.mem_map.mp hcs
      exact (lineStep_changes_ne rules patterns acc.sm acc.progress p).2
        cr hcr sc hsc2

/-! ## The streaming driver emits the sync driver's data (C5 stack) -/

theorem filterMap_const_none {α β : Type} (l : List α) :
    l.filterMap (fun _ => (none : Option β)) = [] := by
  induction l with
  | nil => rfl
  | cons a l ih => simp [List.filterMap_cons, ih]

theorem filterMap_map_sc_rule (l : List StateChange) :
    (l.map AnalysisEvent.stateChange).filterMap evRuleMatch = [] := by
  rw [List.filterMap_map]
  exact filterMap_const_none l

theorem filterMap_map_sc_sc (l : List StateChange) :
    (l.map AnalysisEvent.stateChange).filterMap evStateChange = l := by
  rw [List.filterMap_map]
  induction l with
  | nil => rfl
  | cons a l ih => simp [List.filterMap_cons, ih, evStateChange]

theorem filterMap_map_sc_pm (l : List StateChange) :
    (l.map AnalysisEvent.stateChange).filterMap evPatternMatch = [] := by
  rw [List.filterMap_map]
  exact filterMap_const_none l

theorem filterMap_map_pm_rule (l : List PatternMatch) :
    (l.map AnalysisEvent.patternMatch).filterMap evRuleMatch = [] := by
  rw [List.filterMap_map]
  exact filterMap_const_none l

theorem filterMap_map_pm_sc (l : List PatternMatch) :
    (l.map AnalysisEvent.patternMatch).filterMap evStateChange = [] := by
  rw [List.filterMap_map]
  exact filterMap_const_none l

theorem filterMap_map_pm_pm (l : List PatternMatch) :
    (l.map AnalysisEvent.patternMatch).filterMap evPatternMatch = l := by
  rw [List.filterMap_map]
  induction l with
  | nil => rfl
  | cons a l ih => simp [List.filterMap_cons, ih, evPatternMatch]

theorem filterMap_rrblock_rule
    (rrs : List (List StateChange × RuleMatch)) :
    ((rrs.map (fun cr => cr.1.map AnalysisEvent.stateChange ++
      [AnalysisEvent.ruleMatch cr.2])).flatten).filterMap evRuleMatch =
    rrs.map Prod.snd := by
  induction rrs with
  | nil => rfl
  | cons cr rest ih =>
    simp only [List.map_cons, List.flatten_cons, List.filterMap_append]
    rw [filterMap_map_sc_rule, ih]
    simp [List.filterMap_cons, evRuleMatch]

theorem filterMap_rrblock_sc
    (rrs : List (List StateChange × RuleMatch)) :
    ((rrs.map (fun cr => cr.1.map AnalysisEvent.stateChange ++
      [AnalysisEvent.ruleMatch cr.2])).flatten).filterMap evStateChange =
    (rrs.map Prod.fst).flatten := by
  induction rrs with
  | nil => rfl
  | cons cr rest ih =>
    simp only [List.map_cons, List.flatten_cons, List.filterMap_append]
    rw [filterMap_map_sc_sc, ih]
    simp [List.filterMap_cons, evStateChange]

theorem filterMap_rrblock_pm
    (rrs : List (List StateChange × RuleMatch)) :
    ((rrs.map (fun cr => cr.1.map AnalysisEvent.stateChange ++
      [AnalysisEvent.ruleMatch cr.2])).flatten).filterMap evPatternMatch =
    [] := by
  induction rrs with
  | nil => rfl
  | cons cr rest ih =>
    simp only [List.map_cons, List.flatten_cons, List.filterMap_append]
    rw [filterMap_map_sc_pm, ih]
    simp [List.filterMap_cons, evPatternMatch]

theorem filterMap_progressBlock (n : Nat) :
    ((if n % 500 = 0 then [AnalysisEvent.progress n] else
      [])).filterMap evRuleMatch = [] ∧
    ((if n % 500 = 0 then [AnalysisEvent.progress n] else
      [])).filterMap evStateChange = [] ∧
    ((if n % 500 = 0 then [AnalysisEvent.progress n] else
      [])).filterMap evPatternMatch = [] := by
  split <;> exact ⟨rfl, rfl, rfl⟩

theorem foldl_sim (rules : List LogRule) (patterns : List Pattern) :
    ∀ (l : List ProcessedLine) (sAcc : StreamAcc) (pAcc : Phase2Acc),
      sAcc.sm = pAcc.sm → sAcc.progress = pAcc.progress →
      sAcc.events.filterMap evRuleMatch = pAcc.rule_matches →
      sAcc.events.filterMap evStateChange = pAcc.state_changes →
      sAcc.events.filterMap evPatternMatch = pAcc.pattern_matches →
      ((l.foldl (processLineStreaming rules patterns) sAcc).events.filterMap
          evRuleMatch =
        (l.foldl (processLine rules patterns) pAcc).rule_matches) ∧
      ((l.foldl (processLineStreaming rules patterns) sAcc).events.filterMap
          evStateChange =
        (l.foldl (processLine rules patterns) pAcc).state_changes) ∧
      ((l.foldl (processLineStreaming rules patterns) sAcc).events.filterMap
          evPatternMatch =
        (l.foldl (processLine rules patterns) pAcc).pattern_matches) := by
  intro l
  induction l with
  | nil => intro sAcc pAcc h1 h2 h3 h4 h5; exact ⟨h3, h4, h5⟩
  | cons p rest ih =>
    intro sAcc pAcc h1 h2 h3 h4 h5
    rw [List.foldl_cons, List.foldl_cons]
    apply ih
    · simp only [processLineStreaming, processLine, h1, h2]
    · simp only [processLineStreaming, processLine, h1, h2]
    · simp only [processLineStreaming, processLine, h1, h2,
        List.filterMap_append]
      rw [h3, filterMap_map_sc_rule, filterMap_rrblock_rule,
        filterMap_map_pm_rule, (filterMap_progressBlock _).1]
      simp
    · simp only [processLineStreaming, processLine, h1, h2,
        List.filterMap_append]
      rw [h4, filterMap_map_sc_sc, filterMap_rrblock_sc,
        filterMap_map_pm_sc, (filterMap_progressBlock _).2.1]
      simp
    · simp only [processLineStreaming, processLine, h1, h2,
        List.filterMap_append]
      rw [h5, filterMap_map_sc_pm, filterMap_rrblock_pm,
        filterMap_map_pm_pm, (filterMap_progressBlock _).2.2]
      simp

/-- The streaming driver's event sequence carries exactly the sync driver's
result vectors (open sink, same Phase 1 input). -/
theorem streaming_eq_sync (rules : List LogRule) (patterns : List Pattern)
    (sources : List Source) (tr : TimeRange)
    (processed : List (List ProcessedLine)) :
    ((analyze_streaming rules patterns sources tr processed).filterMap
        evRuleMatch =
      (analyze rules patterns sources tr processed).rule_matches) ∧
    ((analyze_streaming rules patterns sources tr processed).filterMap
        evStateChange =
      (analyze rules patterns sources tr processed).state_changes) ∧
    ((analyze_streaming rules patterns sources tr processed).filterMap
        evPatternMatch =
      (analyze rules patterns sources tr processed).pattern_matches) := by
  have h := foldl_sim rules patterns
    (timeFilter (fun p => p.line.timestamp) tr
      (ProcessedLineMerger.run processed))
    { sm := StateManager.new sources
      progress := List.replicate patterns.length 0
      lines_processed := 0, total_rule_matches := 0
      total_pattern_matches := 0, total_state_changes := 0, events := [] }
    { sm := StateManager.new sources
      progress := List.replicate patterns.length 0
      rule_matches := [], pattern_matches := [], state_changes := [] }
    rfl rfl rfl rfl rfl
  simp only [analyze_streaming, analyze, List.filterMap_append]
  refine ⟨?_, ?_, ?_⟩
  · rw [h.1]; simp [List.filterMap_cons, evRuleMatch]
  · rw [h.2.1]; simp [List.filterMap_cons, evStateChange]
  · rw [h.2.2]; simp [List.filterMap_cons, evPatternMatch]

/-- C4: every StateChange emitted by `analyze` or by `analyze_streaming` —
whether from a Clear, Static or Parsed extraction rule or from JSON
auto-extraction with rule id 0 — has `old_value ≠ new_value` under the
`StateValue` equality the code compares with; a mutation whose resulting
value equals the old value emits no StateChange. -/
theorem c4_no_noop_state_changes (rules : List LogRule)
    (patterns : List Pattern) (sources : List Source) (tr : TimeRange)
    (processed : List (List ProcessedLine)) :
    (∀ sc ∈ (analyze rules patterns sources tr processed).state_changes,
      optSvEq sc.old_value sc.new_value = false) ∧
    (∀ ev ∈ analyze_streaming rules patterns sources tr processed,
      ∀ sc, ev = AnalysisEvent.stateChange sc →
        optSvEq sc.old_value sc.new_value = false) := by
  have hsync : ∀ sc ∈ (analyze rules patterns sources tr
      processed).state_changes, optSvEq sc.old_value sc.new_value = false := by
    intro sc hsc
    simp only [analyze] at hsc
    exact foldl_processLine_changes_ne rules patterns _ _
      (by intro x hx; simp at hx) sc hsc
  refine ⟨hsync, ?_⟩
  intro ev hev sc hsc
  subst hsc
  have hmem : sc ∈ (analyze_streaming rules patterns sources tr
      processed).filterMap evStateChange :=
    List.mem_filterMap.mpr ⟨AnalysisEvent.stateChange sc, hev, rfl⟩
  rw [(streaming_eq_sync rules patterns sources tr processed).2.1] at hmem
  exact hsync sc hmem

/-- Witness for C4: the one StateChange the concrete run emits has
`old_value ≠ new_value`. -/
theorem c4_no_noop_state_changes_witness :
    (c4Sc ∈ (analyze c4Rules [] c4Sources { start := none, stop := none }
      c4Processed).state_changes) ∧
    optSvEq c4Sc.old_value c4Sc.new_value = false := by
  constructor
  · decide
  · exact (c4_no_noop_state_changes c4Rules [] c4Sources
      { start := none, stop := none } c4Processed).1 c4Sc (by decide)

/-- C5: for every input configuration and every merged log line `L`, the
multiset of RuleMatches recorded for `L` by `analyze` equals the multiset
of RuleMatch events emitted for `L` by `analyze_streaming` when the event
sink remains open. -/
theorem c5_sync_streaming_rule_matches (rules : List LogRule)
    (patterns : List Pattern) (sources : List Source) (tr : TimeRange)
    (processed : List (List ProcessedLine)) (L : LogLine) :
    (((analyze rules patterns sources tr processed).rule_matches.filter
        (fun rm => decide (rm.log_line = L)) : List RuleMatch) :
      Multiset RuleMatch) =
    ((((analyze_streaming rules patterns sources tr processed).filterMap
        evRuleMatch).filter
        (fun rm => decide (rm.log_line = L)) : List RuleMatch) :
      Multiset RuleMatch) := by
  rw [(streaming_eq_sync rules patterns sources tr processed).1]

/-! ## Time-range filtering (C6 stack) -/

theorem afterEnd_mono (tr : TimeRange) (t t' : Int)
    (h : afterEnd tr t = true) (hle : t ≤ t') : afterEnd tr t' = true := by
  cases hstop : tr.stop with
  | none => simp [afterEnd, hstop] at h
  | some e =>
    simp only [afterEnd, hstop, decide_eq_true_eq] at h ⊢
    omega

/-- On a timestamp-sorted list the skip/break loop keeps exactly the
in-range elements. -/
theorem timeFilter_eq_filter {α : Type} (ts : α → Int) (tr : TimeRange) :
    ∀ (l : List α), l.Pairwise (fun a b => ts a ≤ ts b) →
    timeFilter ts tr l =
      l.filter (fun p => !beforeStart tr (ts p) && !afterEnd tr (ts p)) := by
  intro l
  induction l with
  | nil => intro _; rfl
  | cons p rest ih =>
    intro hs
    obtain ⟨hp, hrest⟩ := List.pairwise_cons.mp hs
    by_cases hb : beforeStart tr (ts p) = true
    · simp [timeFilter, hb, List.filter_cons, ih hrest]
    · by_cases ha : afterEnd tr (ts p) = true
      · have hnil : (p :: rest).filter
            (fun x => !beforeStart tr (ts x) && !afterEnd tr (ts x)) = [] := by
          rw [List.filter_eq_nil_iff]
          intro x hx
          rcases List.mem_cons.mp hx with rfl | hx'
          · simp [ha]
          · have := afterEnd_mono tr (ts p) (ts x) ha (hp x hx')
            simp [this]
        rw [hnil]
        simp [timeFilter, hb, ha]
      · simp [timeFilter, hb, ha, List.filter_cons, ih hrest]

theorem ruleLoop_stamps (rules : List LogRule) (sn : String)
    (line : LogLine) :
    ∀ (ms : List (Nat × List (String × StateValue))) (sm : StateManager),
      ∀ cr ∈ (ruleLoop rules sn line sm ms).2,
        (∀ sc ∈ cr.1, sc.timestamp = line.timestamp) ∧
        cr.2.log_line = line := by
  intro ms
  induction ms with
  | nil => intro sm cr hcr; simp [ruleLoop] at hcr
  | cons m rest ih =>
    obtain ⟨rid, extracted⟩ := m
    intro sm cr hcr
    simp only [ruleLoop] at hcr
    cases hk : lookupRule rules rid with
    | none => rw [hk] at hcr; exact ih _ cr hcr
    | some rule =>
      rw [hk] at hcr
      simp only at hcr
      rcases List.mem_cons.mp hcr with rfl | hcr'
      · refine ⟨?_, rfl⟩
        intro sc hsc
        obtain ⟨c, hc, rfl⟩ := List.mem_map.mp hsc
        rfl
      · exact ih _ cr hcr'

theorem lineStep_stamps (rules : List LogRule) (patterns : List Pattern)
    (sm : StateManager) (progress : List Nat) (p : ProcessedLine) :
    (∀ sc ∈ (lineStep rules patterns sm progress p).json_changes,
      sc.timestamp = p.line.timestamp) ∧
    (∀ cr ∈ (lineStep rules patterns sm progress p).rule_results,
      (∀ sc ∈ cr.1, sc.timestamp = p.line.timestamp) ∧
      cr.2.log_line = p.line) ∧
    (∀ pm ∈ (lineStep rules patterns sm progress p).pattern_matches,
      pm.timestamp = p.line.timestamp) := by
  refine ⟨?_, ?_, ?_⟩
  · intro sc hsc
    simp only [lineStep] at hsc
    cases hj : p.json_fields with
    | none => rw [hj] at hsc; simp at hsc
    | some fields =>
      rw [hj] at hsc
      simp only at hsc
      obtain ⟨c, hc, rfl⟩ := List.mem_map.mp hsc
      rfl
  · intro cr hcr
    simp only [lineStep] at hcr
    exact ruleLoop_stamps rules _ p.line _ _ cr hcr
  · intro pm hpm
    simp only [lineStep] at hpm
    obtain ⟨m, hm, rfl⟩ := List.mem_map.mp hpm
    rfl

theorem foldl_processLine_stamps (rules : List LogRule)
    (patterns : List Pattern) (Q : Int → Prop) :
    ∀ (l : List ProcessedLine) (acc : Phase2Acc),
      (∀ p ∈ l, Q p.line.timestamp) →
      (∀ sc ∈ acc.state_changes, Q sc.timestamp) →
      (∀ pm ∈ acc.pattern_matches, Q pm.timestamp) →
      (∀ rm ∈ acc.rule_matches, Q rm.log_line.timestamp) →
      (∀ sc ∈ (l.foldl (processLine rules patterns) acc).state_changes,
        Q sc.timestamp) ∧
      (∀ pm ∈ (l.foldl (processLine rules patterns) acc).pattern_matches,
        Q pm.timestamp) ∧
      (∀ rm ∈ (l.foldl (processLine rules patterns) acc).rule_matches,
        Q rm.log_line.timestamp) := by
  intro l
  induction l with
  | nil => intro acc _ h1 h2 h3; exact ⟨h1, h2, h3⟩
  | cons p rest ih =>
    intro acc hl h1 h2 h3
    rw [List.foldl_cons]
    have hline : Q p.line.timestamp := hl p (List.mem_cons_self _ _)
    apply ih
    · intro x hx; exact hl x (List.mem_cons_of_mem _ hx)
    · intro sc hsc
      simp only [processLine] at hsc
      rcases List.mem_append.mp hsc with h | h
      · rcases List.mem_append.mp h with h' | h'
        · exact h1 sc h'
        · rw [(lineStep_stamps rules patterns acc.sm acc.progress p).1 sc h']
          exact hline
      · obtain ⟨cs, hcs, hsc2⟩ := List.mem_flatten.mp h
        obtain ⟨cr, hcr, rfl⟩ := List.mem_map.mp hcs
        rw [((lineStep_stamps rules patterns acc.sm acc.progress p).2.1
          cr hcr).1 sc hsc2]
        exact hline
    · intro pm hpm
      simp only [processLine] at hpm
      rcases List.mem_append.mp hpm with h | h
      · exact h2 pm h
      · rw [(lineStep_stamps rules patterns acc.sm acc.progress p).2.2 pm h]
        exact hline
    · intro rm hrm
      simp only [processLine] at hrm
      rcases List.mem_append.mp hrm with h | h
      · exact h3 rm h
      · obtain ⟨cr, hcr, rfl⟩ := List.mem_map.mp h
        rw [((lineStep_stamps rules patterns acc.sm acc.progress p).2.1
          cr hcr).2]
        exact hline

theorem inRangeB_eq (s e t : Int) :
    (!beforeStart { start := some s, stop := some e } t &&
     !afterEnd { start := some s, stop := some e } t) =
    (decide (s ≤ t) && decide (t ≤ e)) := by
  unfold beforeStart afterEnd
  by_cases h1 : t < s <;> by_cases h2 : e < t <;>
    simp [h1, h2] <;> omega

/-- C6: with a TimeRange `[s, e]` supplied and sorted per-source inputs,
`analyze`, `analyze_streaming` and `cluster_logs` process exactly the merged
lines whose timestamp lies in `[s, e]`, both bounds inclusive (lines
strictly before `s` are skipped, the first line strictly after `e` ends
processing; the processed lines equal the in-range filter of the merged
stream), and consequently every emitted event's timestamp lies within
`[s, e]`. -/
theorem c6_time_range_inclusive (rules : List LogRule)
    (patterns : List Pattern) (sources : List Source) (s e : Int)
    (processed : List (List ProcessedLine)) (lsrcs : List (List LogLine))
    (tok : String → String)
    (hP : ∀ l ∈ processed,
      l.Chain' (fun a b => a.line.timestamp ≤ b.line.timestamp))
    (hL : ∀ l ∈ lsrcs, l.Chain' (fun a b => a.timestamp ≤ b.timestamp)) :
    (timeFilter (fun p : ProcessedLine => p.line.timestamp)
        { start := some s, stop := some e }
        (ProcessedLineMerger.run processed) =
      (ProcessedLineMerger.run processed).filter
        (fun p => decide (s ≤ p.line.timestamp) &&
          decide (p.line.timestamp ≤ e))) ∧
    (∀ sc ∈ (analyze rules patterns sources
        { start := some s, stop := some e } processed).state_changes,
      s ≤ sc.timestamp ∧ sc.timestamp ≤ e) ∧
    (∀ pm ∈ (analyze rules patterns sources
        { start := some s, stop := some e } processed).pattern_matches,
      s ≤ pm.timestamp ∧ pm.timestamp ≤ e) ∧
    (∀ rm ∈ (analyze rules patterns sources
        { start := some s, stop := some e } processed).rule_matches,
      s ≤ rm.log_line.timestamp ∧ rm.log_line.timestamp ≤ e) ∧
    (∀ ev ∈ analyze_streaming rules patterns sources
        { start := some s, stop := some e } processed,
      (∀ sc, ev = AnalysisEvent.stateChange sc →
        s ≤ sc.timestamp ∧ sc.timestamp ≤ e) ∧
      (∀ pm, ev = AnalysisEvent.patternMatch pm →
        s ≤ pm.timestamp ∧ pm.timestamp ≤ e) ∧
      (∀ rm, ev = AnalysisEvent.ruleMatch rm →
        s ≤ rm.log_line.timestamp ∧ rm.log_line.timestamp ≤ e)) ∧
    (timeFilter LogLine.timestamp { start := some s, stop := some e }
        (MergedLogStream.run lsrcs) =
      (MergedLogStream.run lsrcs).filter
        (fun l => decide (s ≤ l.timestamp) && decide (l.timestamp ≤ e))) ∧
    ((cluster_logs tok { start := some s, stop := some e } lsrcs).total_lines
      = ((MergedLogStream.run lsrcs).filter
          (fun l => decide (s ≤ l.timestamp) &&
            decide (l.timestamp ≤ e))).length) := by
  haveI : IsTrans ProcessedLine
      (fun a b => a.line.timestamp ≤ b.line.timestamp) :=
    ⟨fun a b c hab hbc => le_trans hab hbc⟩
  haveI : IsTrans LogLine (fun a b => a.timestamp ≤ b.timestamp) :=
    ⟨fun a b c hab hbc => le_trans hab hbc⟩
  have hP' : ∀ l ∈ processed,
      l.Pairwise (fun a b => a.line.timestamp ≤ b.line.timestamp) :=
    fun l hl => List.chain'_iff_pairwise.mp (hP l hl)
  have hL' : ∀ l ∈ lsrcs,
      l.Pairwise (fun a b => a.timestamp ≤ b.timestamp) :=
    fun l hl => List.chain'_iff_pairwise.mp (hL l hl)
  have hmergedP := mergedList_chain'
    (fun p : ProcessedLine => p.line.timestamp) processed hP'
  have hmergedL := mergedList_chain' LogLine.timestamp lsrcs hL'
  have hfP : timeFilter (fun p : ProcessedLine => p.line.timestamp)
      { start := some s, stop := some e }
      (ProcessedLineMerger.run processed) =
      (ProcessedLineMerger.run processed).filter
        (fun p => decide (s ≤ p.line.timestamp) &&
          decide (p.line.timestamp ≤ e)) := by
    rw [timeFilter_eq_filter (fun p : ProcessedLine => p.line.timestamp)
      { start := some s, stop := some e } (ProcessedLineMerger.run processed)
      (List.chain'_iff_pairwise.mp hmergedP)]
    apply List.filter_congr
    intro p _
    exact inRangeB_eq s e p.line.timestamp
  have hfL : timeFilter LogLine.timestamp { start := some s, stop := some e }
      (MergedLogStream.run lsrcs) =
      (MergedLogStream.run lsrcs).filter
        (fun l => decide (s ≤ l.timestamp) && decide (l.timestamp ≤ e)) := by
    rw [timeFilter_eq_filter LogLine.timestamp
      { start := some s, stop := some e } (MergedLogStream.run lsrcs)
      (List.chain'_iff_pairwise.mp hmergedL)]
    apply List.filter_congr
    intro l _
    exact inRangeB_eq s e l.timestamp
  have hQ : ∀ p ∈ timeFilter (fun p : ProcessedLine => p.line.timestamp)
      { start := some s, stop := some e }
      (ProcessedLineMerger.run processed),
      s ≤ p.line.timestamp ∧ p.line.timestamp ≤ e := by
    intro p hp
    rw [hfP] at hp
    have := List.of_mem_filter hp
    simp only [Bool.and_eq_true, decide_eq_true_eq] at this
    exact this
  have hsync := foldl_processLine_stamps rules patterns
    (fun t => s ≤ t ∧ t ≤ e)
    (timeFilter (fun p : ProcessedLine => p.line.timestamp)
      { start := some s, stop := some e }
      (ProcessedLineMerger.run processed))
    { sm := StateManager.new sources
      progress := List.replicate patterns.length 0
      rule_matches := [], pattern_matches := [], state_changes := [] }
    hQ (by intro x hx; simp at hx) (by intro x hx; simp at hx)
    (by intro x hx; simp at hx)
  have hsync_sc : ∀ sc ∈ (analyze rules patterns sources
      { start := some s, stop := some e } processed).state_changes,
      s ≤ sc.timestamp ∧ sc.timestamp ≤ e := by
    intro sc hsc
    simp only [analyze] at hsc
    exact hsync.1 sc hsc
  have hsync_pm : ∀ pm ∈ (analyze rules patterns sources
      { start := some s, stop := some e } processed).pattern_matches,
      s ≤ pm.timestamp ∧ pm.timestamp ≤ e := by
    intro pm hpm
    simp only [analyze] at hpm
    exact hsync.2.1 pm hpm
  have hsync_rm : ∀ rm ∈ (analyze rules patterns sources
      { start := some s, stop := some e } processed).rule_matches,
      s ≤ rm.log_line.timestamp ∧ rm.log_line.timestamp ≤ e := by
    intro rm hrm
    simp only [analyze] at hrm
    exact hsync.2.2 rm hrm
  refine ⟨hfP, hsync_sc, hsync_pm, hsync_rm, ?_, hfL, ?_⟩
  · intro ev hev
    refine ⟨?_, ?_, ?_⟩
    · intro sc hsc
      subst hsc
      have hmem : sc ∈ (analyze_streaming rules patterns sources
          { start := some s, stop := some e } processed).filterMap
          evStateChange :=
        List.mem_filterMap.mpr ⟨AnalysisEvent.stateChange sc, hev, rfl⟩
      rw [(streaming_eq_sync rules patterns sources
        { start := some s, stop := some e } processed).2.1] at hmem
      exact hsync_sc sc hmem
    · intro pm hpm
      subst hpm
      have hmem : pm ∈ (analyze_streaming rules patterns sources
          { start := some s, stop := some e } processed).filterMap
          evPatternMatch :=
        List.mem_filterMap.mpr ⟨AnalysisEvent.patternMatch pm, hev, rfl⟩
      rw [(streaming_eq_sync rules patterns sources
        { start := some s, stop := some e } processed).2.2] at hmem
      exact hsync_pm pm hmem
    · intro rm hrm
      subst hrm
      have hmem : rm ∈ (analyze_streaming rules patterns sources
          { start := some s, stop := some e } processed).filterMap
          evRuleMatch :=
        List.mem_filterMap.mpr ⟨AnalysisEvent.ruleMatch rm, hev, rfl⟩
      rw [(streaming_eq_sync rules patterns sources
        { start := some s, stop := some e } processed).1] at hmem
      exact hsync_rm rm hmem
  · simp only [cluster_logs]
    rw [hfL]

/-- Witness for C6 at a two-source run with range `[2, 5]`. -/
theorem c6_time_range_inclusive_witness :
    ((∀ l ∈ [[wLine 1 0, wLine 3 0, wLine 6 0], [wLine 2 1, wLine 4 1]],
      l.Chain' (fun a b => a.timestamp ≤ b.timestamp))) ∧
    (timeFilter LogLine.timestamp { start := some 2, stop := some 5 }
        (MergedLogStream.run
          [[wLine 1 0, wLine 3 0, wLine 6 0], [wLine 2 1, wLine 4 1]]) =
      (MergedLogStream.run
          [[wLine 1 0, wLine 3 0, wLine 6 0], [wLine 2 1, wLine 4 1]]).filter
        (fun l => decide (2 ≤ l.timestamp) && decide (l.timestamp ≤ 5))) :=
  ⟨by norm_num [List.chain'_cons, wLine],
    (c6_time_range_inclusive [] [] [] 2 5 []
      [[wLine 1 0, wLine 3 0, wLine 6 0], [wLine 2 1, wLine 4 1]]
      (fun sig => sig) (by simp)
      (by norm_num [List.chain'_cons, wLine])).2.2.2.2.2.1⟩

/-! ## Clustering accounting (C9 stack) -/

theorem addLine_count_sum (sig : String) (l : LogLine) :
    ∀ (m : List (String × LogCluster)),
      ((addLine m sig l).map (fun pe => pe.2.count)).sum =
      (m.map (fun pe => pe.2.count)).sum + 1 := by
  intro m
  induction m with
  | nil => simp [addLine]
  | cons pe rest ih =>
    obtain ⟨s0, e0⟩ := pe
    by_cases hs : s0 = sig
    · simp [addLine, hs, bumpEntry]
      omega
    · simp [addLine, hs, ih]
      omega

theorem clusterEntries_count_sum (tok : String → String) :
    ∀ (lines : List LogLine) (m : List (String × LogCluster)),
      ((lines.foldl (fun m l => addLine m (tok l.content) l) m).map
        (fun pe => pe.2.count)).sum =
      (m.map (fun pe => pe.2.count)).sum + lines.length := by
  intro lines
  induction lines with
  | nil => intro m; simp
  | cons l rest ih =>
    intro m
    rw [List.foldl_cons, ih, addLine_count_sum]
    simp
    omega

theorem addLine_inv (sig : String) (l : LogLine) :
    ∀ (m : List (String × LogCluster)), (∀ pe ∈ m, EntryInv pe) →
      ∀ pe ∈ addLine m sig l, EntryInv pe := by
  intro m
  induction m with
  | nil =>
    intro _ pe hpe
    simp [addLine] at hpe
    subst hpe
    exact ⟨by simp, by simp⟩
  | cons q rest ih =>
    obtain ⟨s0, e0⟩ := q
    intro hm pe hpe
    by_cases hs : s0 = sig
    · simp only [addLine, hs, if_true] at hpe
      rcases List.mem_cons.mp hpe with rfl | hpe'
      · have he := hm (s0, e0) (List.mem_cons_self _ _)
        refine ⟨by simp [bumpEntry], ?_⟩
        simp only [bumpEntry]
        by_cases hlen : e0.sample_lines.length < 3
        · simp [hlen]
          omega
        · simp [hlen]
          exact he.2
      · exact hm pe (List.mem_cons_of_mem _ hpe')
    · simp only [addLine, hs, if_false] at hpe
      rcases List.mem_cons.mp hpe with rfl | hpe'
      · exact hm (s0, e0) (List.mem_cons_self _ _)
      · exact ih (fun x hx => hm x (List.mem_cons_of_mem _ hx)) pe hpe'

theorem clusterEntries_inv (tok : String → String) :
    ∀ (lines : List LogLine) (m : List (String × LogCluster)),
      (∀ pe ∈ m, EntryInv pe) →
      ∀ pe ∈ lines.foldl (fun m l => addLine m (tok l.content) l) m,
        EntryInv pe := by
  intro lines
  induction lines with
  | nil => intro m hm; exact hm
  | cons l rest ih =>
    intro m hm
    rw [List.foldl_cons]
    exact ih _ (addLine_inv (tok l.content) l m hm)

theorem sum_map_filter_split {α : Type} (f : α → Nat) (p : α → Bool)
    (l : List α) :
    ((l.filter p).map f).sum + ((l.filter (fun x => !p x)).map f).sum =
      (l.map f).sum := by
  induction l with
  | nil => rfl
  | cons a rest ih =>
    by_cases ha : p a = true
    · simp [List.filter_cons, ha, ih]
      omega
    · simp [List.filter_cons, ha]
      omega

theorem sum_map_ones {α : Type} (f : α → Nat) (l : List α)
    (h : ∀ x ∈ l, f x = 1) : (l.map f).sum = l.length := by
  induction l with
  | nil => rfl
  | cons a rest ih =>
    simp only [List.map_cons, List.sum_cons, List.length_cons]
    rw [h a (List.mem_cons_self _ _),
      ih (fun x hx => h x (List.mem_cons_of_mem _ hx))]
    omega

/-- C9: `total_lines` counts every in-range line before filtering; every
kept cluster has count at least 2 (singletons are discarded); the sum of
the kept clusters' counts plus the number of discarded singleton signatures
equals `total_lines`; the clusters are sorted by descending count; each
cluster carries at most 3 sample raw lines. -/
theorem c9_cluster_accounting (tok : String → String) (tr : TimeRange)
    (srcs : List (List LogLine)) :
    ((cluster_logs tok tr srcs).total_lines =
      (timeFilter LogLine.timestamp tr (MergedLogStream.run srcs)).length) ∧
    (∀ c ∈ (cluster_logs tok tr srcs).clusters, 1 < c.count) ∧
    (((cluster_logs tok tr srcs).clusters.map LogCluster.count).sum +
      ((clusterEntries tok (timeFilter LogLine.timestamp tr
          (MergedLogStream.run srcs))).filter
        (fun pe => decide (pe.2.count = 1))).length =
      (cluster_logs tok tr srcs).total_lines) ∧
    ((cluster_logs tok tr srcs).clusters.Pairwise
      (fun a b => b.count ≤ a.count)) ∧
    (∀ c ∈ (cluster_logs tok tr srcs).clusters,
      c.sample_lines.length ≤ 3) := by
  have hperm : ((cluster_logs tok tr srcs).clusters).Perm
      (((clusterEntries tok (timeFilter LogLine.timestamp tr
        (MergedLogStream.run srcs))).filter
          (fun pe => decide (1 < pe.2.count))).map Prod.snd) := by
    simp only [cluster_logs]
    exact List.mergeSort_perm _ _
  have hinv : ∀ pe ∈ clusterEntries tok (timeFilter LogLine.timestamp tr
      (MergedLogStream.run srcs)), EntryInv pe :=
    clusterEntries_inv tok _ [] (by intro x hx; simp at hx)
  have hmem : ∀ c ∈ (cluster_logs tok tr srcs).clusters,
      ∃ pe ∈ clusterEntries tok (timeFilter LogLine.timestamp tr
        (MergedLogStream.run srcs)),
        decide (1 < pe.2.count) = true ∧ pe.2 = c := by
    intro c hc
    have := hperm.mem_iff.mp hc
    obtain ⟨pe, hpe, rfl⟩ := List.mem_map.mp this
    exact ⟨pe, (List.mem_filter.mp hpe).1, (List.mem_filter.mp hpe).2, rfl⟩
  refine ⟨rfl, ?_, ?_, ?_, ?_⟩
  · intro c hc
    obtain ⟨pe, _, hgt, rfl⟩ := hmem c hc
    simpa using hgt
  · have hsum1 : ((cluster_logs tok tr srcs).clusters.map
        LogCluster.count).sum =
        (((clusterEntries tok (timeFilter LogLine.timestamp tr
          (MergedLogStream.run srcs))).filter
            (fun pe => decide (1 < pe.2.count))).map
          (fun pe => pe.2.count)).sum := by
      rw [(hperm.map LogCluster.count).sum_eq, List.map_map]
      rfl
    have hsplit := sum_map_filter_split (fun pe => pe.2.count)
      (fun pe => decide (1 < pe.2.count))
      (clusterEntries tok (timeFilter LogLine.timestamp tr
        (MergedLogStream.run srcs)))
    have htotal : ((clusterEntries tok (timeFilter LogLine.timestamp tr
        (MergedLogStream.run srcs))).map (fun pe => pe.2.count)).sum =
        (timeFilter LogLine.timestamp tr (MergedLogStream.run srcs)).length
          := by
      rw [clusterEntries, clusterEntries_count_sum]
      simp
    have hfc : (clusterEntries tok (timeFilter LogLine.timestamp tr
        (MergedLogStream.run srcs))).filter
          (fun pe => !decide (1 < pe.2.count)) =
        (clusterEntries tok (timeFilter LogLine.timestamp tr
          (MergedLogStream.run srcs))).filter
          (fun pe => decide (pe.2.count = 1)) := by
      apply List.filter_congr
      intro pe hpe
      have h1 := (hinv pe hpe).1
      by_cases hgt : 1 < pe.2.count
      · have : ¬ pe.2.count = 1 := by omega
        simp [hgt, this]
      · have : pe.2.count = 1 := by omega
        simp [hgt, this]
    have hones : (((clusterEntries tok (timeFilter LogLine.timestamp tr
        (MergedLogStream.run srcs))).filter
          (fun pe => decide (pe.2.count = 1))).map
        (fun pe => pe.2.count)).sum =
        ((clusterEntries tok (timeFilter LogLine.timestamp tr
          (MergedLogStream.run srcs))).filter
          (fun pe => decide (pe.2.count = 1))).length := by
      apply sum_map_ones
      intro pe hpe
      simpa using (List.mem_filter.mp hpe).2
    rw [hsum1]
    rw [hfc, hones] at hsplit
    simp only [cluster_logs]
    omega
  · have hs := @List.sorted_mergeSort LogCluster
      (fun a b : LogCluster => decide (b.count ≤ a.count))
      (by intro a b c hab hbc; simp only [decide_eq_true_eq] at *; omega)
      (by intro a b; simp only [Bool.or_eq_true, decide_eq_true_eq]; omega)
      (((clusterEntries tok (timeFilter LogLine.timestamp tr
        (MergedLogStream.run srcs))).filter
          (fun pe => decide (1 < pe.2.count))).map Prod.snd)
    simp only [cluster_logs]
    exact hs.imp (by intro a b h; simpa using h)
  · intro c hc
    obtain ⟨pe, hpe, _, rfl⟩ := hmem c hc
    exact (hinv pe hpe).2

/-- Witness for C9: on the concrete input the kept cluster has count 2 and
`2 + 1 = 3 = total_lines`. -/
theorem c9_cluster_accounting_witness :
    (((cluster_logs (fun sig => sig) { start := none, stop := none }
        c9Srcs).clusters.map LogCluster.count).sum +
      ((clusterEntries (fun sig => sig)
          (timeFilter LogLine.timestamp { start := none, stop := none }
            (MergedLogStream.run c9Srcs))).filter
        (fun pe => decide (pe.2.count = 1))).length =
      (cluster_logs (fun sig => sig) { start := none, stop := none }
        c9Srcs).total_lines) ∧
    (cluster_logs (fun sig => sig) { start := none, stop := none }
        c9Srcs).total_lines = 3 :=
  ⟨(c9_cluster_accounting (fun sig => sig) { start := none, stop := none }
      c9Srcs).2.2.1, by decide⟩

/-- C10: in `StateManager::apply_mutations` a Replace write whose resulting
value compares equal to the old value under `StateValue` equality emits no
diff even when the stored variant changes: because Integer and Float
cross-compare by promoting the integer, overwriting `Integer n` with
`Float q` where the promotion of `n` equals `q` (or vice versa) produces no
StateChange, although the stored value's variant and its `set_at` timestamp
are updated (final conjuncts). -/
theorem c10_cross_type_noop (sm : StateManager) (sid : Nat) (k : String)
    (st0 : StateMap) (n : Int) (q : ℚ) (rid : Nat) (t0 t : Int)
    (hstate : smGet sm.per_source_state sid = some st0)
    (hq : (n : ℚ) = q) :
    (smGet st0 k = some { value := StateValue.integer n, set_at := t0 } →
      sm.apply_mutations sid [(k, StateValue.float q)]
          [{ id := rid, extraction_type := .parsed, state_key := k,
             pattern := none, static_value := none, mode := .replace }] t =
        ({ sm with
            per_source_state :=
              smInsert sid
                (smInsert k { value := StateValue.float q, set_at := t } st0)
                sm.per_source_state }, [])) ∧
    (smGet st0 k = some { value := StateValue.float q, set_at := t0 } →
      sm.apply_mutations sid [(k, StateValue.integer n)]
          [{ id := rid, extraction_type := .parsed, state_key := k,
             pattern := none, static_value := none, mode := .replace }] t =
        ({ sm with
            per_source_state :=
              smInsert sid
                (smInsert k { value := StateValue.integer n, set_at := t }
                  st0)
                sm.per_source_state }, [])) ∧
    smGet (smInsert k { value := StateValue.float q, set_at := t } st0) k =
      some { value := StateValue.float q, set_at := t } ∧
    smGet (smInsert k { value := StateValue.integer n, set_at := t } st0) k
      = some { value := StateValue.integer n, set_at := t } := by
  refine ⟨?_, ?_, smGet_insert_self k _ st0, smGet_insert_self k _ st0⟩
  · intro hkey
    have hext : smGet [(k, StateValue.float q)] k =
        some (StateValue.float q) := by simp [smGet]
    simp only [StateManager.apply_mutations, applyRulesLoop, applyOneRule,
      hstate, Option.getD_some, hext, hkey, Option.map_some',
      smGet_insert_self, optSvEq, svEq, hq]
    simp
  · intro hkey
    have hext : smGet [(k, StateValue.integer n)] k =
        some (StateValue.integer n) := by simp [smGet]
    simp only [StateManager.apply_mutations, applyRulesLoop, applyOneRule,
      hstate, Option.getD_some, hext, hkey, Option.map_some',
      smGet_insert_self, optSvEq, svEq, hq]
    simp

/-- Witness for C10: overwriting `Integer 3` with `Float 3` emits no
StateChange while the stored variant and timestamp change. -/
theorem c10_cross_type_noop_witness :
    c10Sm.apply_mutations 1 [("x", StateValue.float 3)]
        [{ id := 9, extraction_type := .parsed, state_key := "x",
           pattern := none, static_value := none, mode := .replace }] 5 =
      ({ c10Sm with
          per_source_state :=
            smInsert 1
              (smInsert "x" { value := StateValue.float 3, set_at := 5 }
                [("x", { value := StateValue.integer 3, set_at := 0 })])
              c10Sm.per_source_state }, []) :=
  (c10_cross_type_noop c10Sm 1 "x"
    [("x", { value := StateValue.integer 3, set_at := 0 })] 3 3 9 0 5
    (by decide) (by norm_num)).1 (by decide)

theorem scanDesc_eq_find (p : Nat → Bool) (lo : Nat) :
    ∀ hi, scanDesc p lo hi = (descRange lo hi).find? p := by
  intro hi
  induction hi with
  | zero =>
    by_cases h0 : lo = 0
    · by_cases hp : p 0 = true <;>
        simp [scanDesc, descRange, h0, hp, List.find?]
    · simp [scanDesc, descRange, h0]
  | succ h ih =>
    by_cases hlt : h + 1 < lo
    · simp [scanDesc, descRange, hlt]
    · by_cases hp : p (h + 1) = true <;>
        simp [scanDesc, descRange, hlt, hp, List.find?, ih]

/-- C8 counterexample: format `%Y` (window `[3, 5]` on a line of length 8)
with a parse oracle that succeeds only at prefix length 1.  The claimed
final fall-back — "tries prefixes from the format's length down to 1
character" — would find length 1 (second conjunct), but the code returns
failure: the fallback never tries lengths below
`min(format length, line length)` = 2. -/
theorem c8_counterexample :
    parseTimestampFull (fun n => n == 1) 8 ['%', 'Y'] = none ∧
    (descRange 1 (['%', 'Y'] : List Char).length).find? (fun n => n == 1) =
      some 1 :=
  ⟨by decide, by decide⟩

/-- C8 amended: when the whole-string parse fails and the width-window
scan (window `[min_ts - 1, max_ts + 1]` estimated by summing per-specifier
widths, clamped to the line, tried longest to shortest) finds nothing, the
parser falls back to scanning the lengths from just below the window down
to `min(format length, line length)` and then from the line's length down
to just above the window, in that order; prefixes shorter than the
format's length are never attempted. -/
theorem c8_fallback_scan (p : Nat → Bool) (lineLen : Nat) (fmt : List Char)
    (hwhole : p lineLen = false)
    (hwindow : scanDesc p
      (min (max ((estimate_timestamp_len fmt).1 - 1) 1) lineLen)
      (min ((estimate_timestamp_len fmt).2 + 1) lineLen) = none) :
    parseTimestampFull p lineLen fmt =
      ((if min (max ((estimate_timestamp_len fmt).1 - 1) 1) lineLen = 0
          then []
          else descRange (min fmt.length lineLen)
            (min (max ((estimate_timestamp_len fmt).1 - 1) 1) lineLen - 1))
        ++ descRange
            (min ((estimate_timestamp_len fmt).2 + 1) lineLen + 1)
            lineLen).find? p := by
  rw [List.find?_append]
  simp only [parseTimestampFull, hwhole, Bool.false_eq_true, if_false,
    parseTimestampSearch]
  rw [hwindow]
  by_cases h0 :
      min (max ((estimate_timestamp_len fmt).1 - 1) 1) lineLen = 0
  · simp only [h0, if_true, scanDesc_eq_find]
    rfl
  · simp only [h0, if_false]
    rw [scanDesc_eq_find, scanDesc_eq_find]
    cases hf : (descRange (min fmt.length lineLen)
        (min (max ((estimate_timestamp_len fmt).1 - 1) 1) lineLen -
          1)).find? p with
    | some n => simp [Option.or, hf]
    | none => simp [Option.or, hf]

/-- Witness for the amended C8 at a concrete oracle that fails
everywhere. -/
theorem c8_fallback_scan_witness :
    ((fun _ : Nat => false) 8 = false) ∧
    parseTimestampFull (fun _ => false) 8 ['%', 'Y'] =
      ((if min (max ((estimate_timestamp_len ['%', 'Y']).1 - 1) 1) 8 = 0
          then []
          else descRange (min (['%', 'Y'] : List Char).length 8)
            (min (max ((estimate_timestamp_len ['%', 'Y']).1 - 1) 1) 8 - 1))
        ++ descRange
            (min ((estimate_timestamp_len ['%', 'Y']).2 + 1) 8 + 1)
            8).find? (fun _ => false) :=
  ⟨rfl, c8_fallback_scan (fun _ => false) 8 ['%', 'Y'] (by decide)
    (by decide)⟩

theorem plRel_ts {a b : ProcessedLine} (h : plRel a b) :
    a.line.timestamp = b.line.timestamp := by rw [h.1]

section MergeRel

variable {α : Type} (r : α → α → Prop) (ts : α → Int)

theorem popMin_rel (hts : ∀ a b, r a b → ts a = ts b) :
    ∀ (h1 h2 : List (α × Nat)), List.Forall₂ (pairRel r) h1 h2 →
      (popMin ts h1 = none ∧ popMin ts h2 = none) ∨
      (∃ e1 e2 i rest1 rest2, popMin ts h1 = some ((e1, i), rest1) ∧
        popMin ts h2 = some ((e2, i), rest2) ∧ r e1 e2 ∧
        List.Forall₂ (pairRel r) rest1 rest2) := by
  intro h1 h2 hf
  induction hf with
  | nil => exact Or.inl ⟨rfl, rfl⟩
  | cons hxy ht ih =>
    right
    rename_i x y t1 t2
    obtain ⟨hr, hi⟩ := hxy
    rcases ih with ⟨hn1, hn2⟩ | ⟨m1, m2, j, r1, r2, hp1, hp2, hm, hrest⟩
    · have ht1 : t1 = [] := by
        cases t1 with
        | nil => rfl
        | cons a l => have := popMin_isSome ts a l; rw [hn1] at this; simp at this
      have ht2 : t2 = [] := by
        cases t2 with
        | nil => rfl
        | cons a l => have := popMin_isSome ts a l; rw [hn2] at this; simp at this
      subst ht1; subst ht2
      refine ⟨x.1, y.1, x.2, [], [], ?_, ?_, hr, List.Forall₂.nil⟩
      · simp [popMin]
      · simp [popMin, hi]
    · have hlex : lexLtB ts (m1, j) x = lexLtB ts (m2, j) y := by
        have h1ts : ts m1 = ts m2 := hts _ _ hm
        have h2ts : ts x.1 = ts y.1 := hts _ _ hr
        simp [lexLtB, h1ts, h2ts, hi]
      by_cases hlt : lexLtB ts (m1, j) x = true
      · refine ⟨m1, m2, j, x :: r1, y :: r2, ?_, ?_, hm, ?_⟩
        · simp [popMin, hp1, hlt]
        · simp [popMin, hp2, ← hlex, hlt]
        · exact List.Forall₂.cons ⟨hr, hi⟩ hrest
      · refine ⟨x.1, y.1, x.2, t1, t2, ?_, ?_, hr, ht⟩
        · simp [popMin, hp1, hlt]
        · simp [popMin, hp2, ← hlex, hlt, hi]

theorem Forall₂_getD {β : Type} (q : β → β → Prop) :
    ∀ (l1 l2 : List (List β)), List.Forall₂ (List.Forall₂ q) l1 l2 →
      ∀ i, List.Forall₂ q (l1.getD i []) (l2.getD i []) := by
  intro l1 l2 hf
  induction hf with
  | nil => intro i; simp [List.getD]
  | cons hxy ht ih =>
    intro i
    cases i with
    | zero => simpa [List.getD] using hxy
    | succ j => simpa [List.getD] using ih j

theorem Forall₂_set {β : Type} (q : β → β → Prop) :
    ∀ (l1 l2 : List (List β)), List.Forall₂ (List.Forall₂ q) l1 l2 →
      ∀ (a b : List β), List.Forall₂ q a b → ∀ i,
        List.Forall₂ (List.Forall₂ q) (l1.set i a) (l2.set i b) := by
  intro l1 l2 hf
  induction hf with
  | nil => intro a b _ i; simp
  | cons hxy ht ih =>
    intro a b hab i
    cases i with
    | zero => exact List.Forall₂.cons hab ht
    | succ j => exact List.Forall₂.cons hxy (ih a b hab j)

theorem mergeRun_rel (hts : ∀ a b, r a b → ts a = ts b) :
    ∀ (fuel : Nat) (h1 h2 : List (α × Nat))
      (iters1 iters2 : List (List α)),
      List.Forall₂ (pairRel r) h1 h2 →
      List.Forall₂ (List.Forall₂ r) iters1 iters2 →
      List.Forall₂ (pairRel r) (mergeRun ts fuel h1 iters1)
        (mergeRun ts fuel h2 iters2) := by
  intro fuel
  induction fuel with
  | zero => intro _ _ _ _ _ _; simp [mergeRun]
  | succ n ih =>
    intro h1 h2 iters1 iters2 hh hi
    rcases popMin_rel r ts hts h1 h2 hh with ⟨hn1, hn2⟩ |
      ⟨e1, e2, i, r1, r2, hp1, hp2, he, hrest⟩
    · simp [mergeRun, hn1, hn2]
    · have hgd := Forall₂_getD r iters1 iters2 hi i
      cases hcase : iters1.getD i [] with
      | nil =>
        have h2nil : iters2.getD i [] = [] := by
          rw [hcase] at hgd
          exact List.forall₂_nil_left_iff.mp hgd
        simp only [mergeRun, hp1, hp2, hcase, h2nil]
        exact List.Forall₂.cons ⟨he, rfl⟩ (ih r1 r2 iters1 iters2 hrest hi)
      | cons f fs =>
        rw [hcase] at hgd
        obtain ⟨g, gs, hfg, hfsgs, hgd2⟩ :=
          List.forall₂_cons_left_iff.mp hgd
        simp only [mergeRun, hp1, hp2, hcase, hgd2]
        refine List.Forall₂.cons ⟨he, rfl⟩ ?_
        exact ih ((f, i) :: r1) ((g, i) :: r2) _ _
          (List.Forall₂.cons ⟨hfg, rfl⟩ hrest)
          (Forall₂_set r iters1 iters2 hi fs gs hfsgs i)

theorem initHeap_rel_aux :
    ∀ (n : Nat) (l1 l2 : List (List α)),
      List.Forall₂ (List.Forall₂ r) l1 l2 →
      List.Forall₂ (pairRel r)
        ((l1.enumFrom n).filterMap fun p => p.2.head?.map fun e => (e, p.1))
        ((l2.enumFrom n).filterMap fun p =>
          p.2.head?.map fun e => (e, p.1)) := by
  intro n l1 l2 h
  induction h generalizing n with
  | nil => exact List.Forall₂.nil
  | cons hxy ht ih =>
    cases hxy with
    | nil =>
      simpa [List.enumFrom, List.filterMap_cons] using ih (n + 1)
    | cons hab htail =>
      simp only [List.enumFrom, List.filterMap_cons, List.head?,
        Option.map_some]
      exact List.Forall₂.cons ⟨hab, rfl⟩ (ih (n + 1))

theorem initHeap_rel (l1 l2 : List (List α))
    (h : List.Forall₂ (List.Forall₂ r) l1 l2) :
    List.Forall₂ (pairRel r) (initHeap l1) (initHeap l2) :=
  initHeap_rel_aux r 0 l1 l2 h

theorem initIters_rel (l1 l2 : List (List α))
    (h : List.Forall₂ (List.Forall₂ r) l1 l2) :
    List.Forall₂ (List.Forall₂ r) (initIters l1) (initIters l2) := by
  simp only [initIters]
  induction h with
  | nil => exact List.Forall₂.nil
  | cons hxy ht ih =>
    simp only [List.map_cons]
    refine List.Forall₂.cons ?_ ih
    cases hxy with
    | nil => exact List.Forall₂.nil
    | cons hab htail => simpa using htail

theorem sum_lengths_rel (l1 l2 : List (List α))
    (h : List.Forall₂ (List.Forall₂ r) l1 l2) :
    (l1.map List.length).sum = (l2.map List.length).sum := by
  induction h with
  | nil => rfl
  | cons hxy ht ih => simp [hxy.length_eq, ih]

theorem mergeFuel_rel (h1 h2 : List (α × Nat)) (i1 i2 : List (List α))
    (hh : List.Forall₂ (pairRel r) h1 h2)
    (hi : List.Forall₂ (List.Forall₂ r) i1 i2) :
    mergeFuel h1 i1 = mergeFuel h2 i2 := by
  simp [mergeFuel, hh.length_eq, sum_lengths_rel r i1 i2 hi]

theorem Forall₂_map_fst {β : Type} (q : β → β → Prop)
    (l1 l2 : List (β × Nat)) (h : List.Forall₂ (pairRel q) l1 l2) :
    List.Forall₂ q (l1.map Prod.fst) (l2.map Prod.fst) := by
  induction h with
  | nil => exact List.Forall₂.nil
  | cons hxy ht ih => exact List.Forall₂.cons hxy.1 ih

theorem mergedList_rel (hts : ∀ a b, r a b → ts a = ts b)
    (srcs1 srcs2 : List (List α))
    (h : List.Forall₂ (List.Forall₂ r) srcs1 srcs2) :
    List.Forall₂ r (mergedList ts srcs1) (mergedList ts srcs2) := by
  have hh := initHeap_rel r srcs1 srcs2 h
  have hi := initIters_rel r srcs1 srcs2 h
  have hf : mergeFuel (initHeap srcs1) (initIters srcs1) =
      mergeFuel (initHeap srcs2) (initIters srcs2) :=
    mergeFuel_rel r _ _ _ _ hh hi
  have hm := mergeRun_rel r ts hts
    (mergeFuel (initHeap srcs1) (initIters srcs1))
    (initHeap srcs1) (initHeap srcs2) (initIters srcs1) (initIters srcs2)
    hh hi
  simp only [mergedList, mergedPairs, ← hf]
  exact Forall₂_map_fst r _ _ hm

end MergeRel

theorem timeFilter_rel {α : Type} (r : α → α → Prop) (ts : α → Int)
    (hts : ∀ a b, r a b → ts a = ts b) (tr : TimeRange) :
    ∀ (l1 l2 : List α), List.Forall₂ r l1 l2 →
      List.Forall₂ r (timeFilter ts tr l1) (timeFilter ts tr l2) := by
  intro l1 l2 h
  induction h with
  | nil => exact List.Forall₂.nil
  | cons hxy ht ih =>
    rename_i x y t1 t2
    have he := hts _ _ hxy
    simp only [timeFilter, he]
    by_cases hb : beforeStart tr (ts y) = true
    · simpa [hb] using ih
    · simp only [hb, if_false]
      by_cases ha : afterEnd tr (ts y) = true
      · simp [ha]
      · simpa [ha] using List.Forall₂.cons hxy ih

theorem applyJsonFields_state (t : Int) :
    ∀ (fields : List (String × StateValue)) (st : StateMap),
      (applyJsonFields st t fields).1 =
        fields.foldl
          (fun s kv => smInsert kv.1 { value := kv.2, set_at := t } s)
          st := by
  intro fields
  induction fields with
  | nil => intro st; rfl
  | cons kv rest ih =>
    intro st
    obtain ⟨key, sv⟩ := kv
    simp only [applyJsonFields, List.foldl_cons]
    split
    · exact ih _
    · exact ih _

theorem foldl_smInsert_perm (t : Int) :
    ∀ (l1 l2 : List (String × StateValue)), l1.Perm l2 →
      (l1.map Prod.fst).Nodup → ∀ st : StateMap,
      l1.foldl (fun s kv => smInsert kv.1 { value := kv.2, set_at := t } s)
          st =
        l2.foldl
          (fun s kv => smInsert kv.1 { value := kv.2, set_at := t } s)
          st := by
  intro l1 l2 hp
  induction hp with
  | nil => intro _ st; rfl
  | cons x h ih =>
    intro hnd st
    simp only [List.map_cons, List.nodup_cons] at hnd
    simp only [List.foldl_cons]
    exact ih hnd.2 _
  | swap x y l =>
    intro hnd st
    simp only [List.map_cons, List.nodup_cons, List.mem_cons] at hnd
    have hne : x.1 ≠ y.1 := fun he => hnd.1 (Or.inl he.symm)
    simp only [List.foldl_cons]
    rw [smInsert_comm x.1 y.1 _ _ st hne]
  | trans h1 h2 ih1 ih2 =>
    intro hnd st
    rw [ih1 hnd st, ih2 (((h1.map Prod.fst).nodup_iff).mp hnd) st]

theorem applyJsonFields_changes (t : Int) :
    ∀ (fields : List (String × StateValue)) (st : StateMap),
      (fields.map Prod.fst).Nodup →
      (applyJsonFields st t fields).2 = fields.filterMap (jsonDiff st) := by
  intro fields
  induction fields with
  | nil => intro st _; rfl
  | cons kv rest ih =>
    intro st hnd
    obtain ⟨key, sv⟩ := kv
    simp only [List.map_cons, List.nodup_cons] at hnd
    have hcong : rest.filterMap
        (jsonDiff (smInsert key { value := sv, set_at := t } st)) =
        rest.filterMap (jsonDiff st) := by
      refine List.filterMap_congr (fun a ha => ?_)
      have hne : a.1 ≠ key := by
        intro he
        exact hnd.1 (he ▸ List.mem_map_of_mem Prod.fst ha)
      simp only [jsonDiff, smGet_insert_ne key a.1 _ st hne]
    have hres : (applyJsonFields st t ((key, sv) :: rest)).2 =
        (if optSvEq ((smGet st key).map (fun tv => tv.value)) (some sv)
         then (applyJsonFields (smInsert key { value := sv, set_at := t }
            st) t rest).2
         else (key, (smGet st key).map (fun tv => tv.value), some sv) ::
           (applyJsonFields (smInsert key { value := sv, set_at := t } st)
            t rest).2) := by
      simp only [applyJsonFields]
      split
      · rfl
      · rfl
    rw [hres, ih _ hnd.2, hcong]
    by_cases hc :
        optSvEq ((smGet st key).map (fun tv => tv.value)) (some sv) = true
    · simp [List.filterMap_cons, jsonDiff, hc]
    · simp [List.filterMap_cons, jsonDiff, hc]

theorem lineStep_rel (rules : List LogRule) (patterns : List Pattern)
    (sm : StateManager) (progress : List Nat) (p q : ProcessedLine)
    (h : plRel p q) :
    (lineStep rules patterns sm progress p).sm =
      (lineStep rules patterns sm progress q).sm ∧
    (lineStep rules patterns sm progress p).progress =
      (lineStep rules patterns sm progress q).progress ∧
    (lineStep rules patterns sm progress p).rule_results =
      (lineStep rules patterns sm progress q).rule_results ∧
    (lineStep rules patterns sm progress p).pattern_matches =
      (lineStep rules patterns sm progress q).pattern_matches ∧
    (lineStep rules patterns sm progress p).json_changes.Perm
      (lineStep rules patterns sm progress q).json_changes := by
  obtain ⟨pline, prm, pjf⟩ := p
  obtain ⟨qline, qrm, qjf⟩ := q
  obtain ⟨hl, hr, hjf⟩ := h
  dsimp only at hl hr hjf
  subst hl; subst hr
  cases pjf with
  | none =>
    cases qjf with
    | none => exact ⟨rfl, rfl, rfl, rfl, List.Perm.refl _⟩
    | some l2 => exact False.elim hjf
  | some l1 =>
    cases qjf with
    | none => exact False.elim hjf
    | some l2 =>
      obtain ⟨hperm, hnd⟩ := hjf
      have hnd2 : (l2.map Prod.fst).Nodup :=
        ((hperm.map Prod.fst).nodup_iff).mp hnd
      have hstate : (applyJsonFields
          ((smGet sm.per_source_state pline.source_id).getD [])
          pline.timestamp l1).1 =
        (applyJsonFields
          ((smGet sm.per_source_state pline.source_id).getD [])
          pline.timestamp l2).1 := by
        rw [applyJsonFields_state, applyJsonFields_state]
        exact foldl_smInsert_perm pline.timestamp l1 l2 hperm hnd _
      have hchg : ((applyJsonFields
          ((smGet sm.per_source_state pline.source_id).getD [])
          pline.timestamp l1).2).Perm
        ((applyJsonFields
          ((smGet sm.per_source_state pline.source_id).getD [])
          pline.timestamp l2).2) := by
        rw [applyJsonFields_changes _ l1 _ hnd,
          applyJsonFields_changes _ l2 _ hnd2]
        exact hperm.filterMap _
      simp only [lineStep]
      rw [hstate]
      exact ⟨rfl, rfl, rfl, rfl, hchg.map _⟩

theorem processLine_rel (rules : List LogRule) (patterns : List Pattern)
    (a b : Phase2Acc) (hab : accRel a b) (p q : ProcessedLine)
    (hpq : plRel p q) :
    accRel (processLine rules patterns a p)
      (processLine rules patterns b q) := by
  obtain ⟨h1, h2, h3, h4, h5⟩ := hab
  obtain ⟨e1, e2, e3, e4, e5⟩ :=
    lineStep_rel rules patterns a.sm a.progress p q hpq
  refine ⟨?_, ?_, ?_, ?_, ?_⟩ <;>
    simp only [processLine, ← h1, ← h2, h3, h4]
  · exact e1
  · exact e2
  · rw [e3]
  · rw [e4]
  · exact (h5.append e5).append (e3 ▸ List.Perm.refl _)

theorem foldl_processLine_rel (rules : List LogRule)
    (patterns : List Pattern) :
    ∀ (l1 l2 : List ProcessedLine), List.Forall₂ plRel l1 l2 →
      ∀ (a b : Phase2Acc), accRel a b →
        accRel (l1.foldl (processLine rules patterns) a)
          (l2.foldl (processLine rules patterns) b) := by
  intro l1 l2 h
  induction h with
  | nil => intro a b hab; exact hab
  | cons hxy ht ih =>
    intro a b hab
    simp only [List.foldl_cons]
    exact ih _ _ (processLine_rel rules patterns a b hab _ _ hxy)

/-- **C7** (corrected).  Re-running `analyze` on unchanged inputs re-runs
the identical computation except for the iteration order of each line's
JSON auto-extraction `HashMap` (Rust `HashMap` iteration order is seeded
per instance).  For two runs so related (`plRel` per line: equal lines,
equal rule matches, same JSON field map up to iteration order), `analyze`
returns identical `rule_matches` and identical `pattern_matches` (in the
same order), and the same multiset of `state_changes` — but, contrary to
the claim, the `state_changes` need not be in the same order (see the
counterexample): within one line's JSON auto-extraction the emitted
`StateChange`s follow the map iteration order. -/
theorem c7_analyze_deterministic_up_to_json_order
    (rules : List LogRule) (patterns : List Pattern)
    (sources : List Source) (tr : TimeRange)
    (processed1 processed2 : List (List ProcessedLine))
    (h : List.Forall₂ (List.Forall₂ plRel) processed1 processed2) :
    (analyze rules patterns sources tr processed1).rule_matches =
      (analyze rules patterns sources tr processed2).rule_matches ∧
    (analyze rules patterns sources tr processed1).pattern_matches =
      (analyze rules patterns sources tr processed2).pattern_matches ∧
    (analyze rules patterns sources tr processed1).state_changes.Perm
      (analyze rules patterns sources tr processed2).state_changes := by
  have hm : List.Forall₂ plRel (ProcessedLineMerger.run processed1)
      (ProcessedLineMerger.run processed2) :=
    mergedList_rel plRel (fun p => p.line.timestamp)
      (fun a b hab => plRel_ts hab) processed1 processed2 h
  have hf := timeFilter_rel plRel (fun p => p.line.timestamp)
    (fun a b hab => plRel_ts hab) tr _ _ hm
  have hfold := foldl_processLine_rel rules patterns _ _ hf
    { sm := StateManager.new sources
      progress := List.replicate patterns.length 0
      rule_matches := [], pattern_matches := [], state_changes := [] }
    { sm := StateManager.new sources
      progress := List.replicate patterns.length 0
      rule_matches := [], pattern_matches := [], state_changes := [] }
    ⟨rfl, rfl, rfl, rfl, List.Perm.refl _⟩
  simp only [analyze]
  exact ⟨hfold.2.2.1, hfold.2.2.2.1, hfold.2.2.2.2⟩

/-- **C7** counterexample to the claimed "same `state_changes` in the same
order": the same input line with its JSON field map iterated in the two
possible orders — exactly the freedom Rust's `HashMap` has between two
runs on unchanged inputs — makes `analyze` emit the two `StateChange`s in
opposite orders, so the two `AnalysisResult`s are not identical. -/
theorem c7_counterexample :
    List.Forall₂ (List.Forall₂ plRel) [[c7P1]] [[c7P2]] ∧
    (analyze [] [] [] c7TR [[c7P1]]).state_changes ≠
      (analyze [] [] [] c7TR [[c7P2]]).state_changes := by
  constructor
  · exact List.Forall₂.cons
      (List.Forall₂.cons
        ⟨rfl, rfl, List.Perm.swap _ _ _, by decide⟩ List.Forall₂.nil)
      List.Forall₂.nil
  · decide

/-- Witness for C7 at the concrete two-field JSON line. -/
theorem c7_analyze_deterministic_witness :
    (analyze [] [] [] c7TR [[c7P1]]).rule_matches =
      (analyze [] [] [] c7TR [[c7P2]]).rule_matches ∧
    (analyze [] [] [] c7TR [[c7P1]]).pattern_matches =
      (analyze [] [] [] c7TR [[c7P2]]).pattern_matches ∧
    (analyze [] [] [] c7TR [[c7P1]]).state_changes.Perm
      (analyze [] [] [] c7TR [[c7P2]]).state_changes :=
  c7_analyze_deterministic_up_to_json_order [] [] [] c7TR [[c7P1]] [[c7P2]]
    (List.Forall₂.cons
      (List.Forall₂.cons
        ⟨rfl, rfl, List.Perm.swap _ _ _, by decide⟩ List.Forall₂.nil)
      List.Forall₂.nil)

end Logium
